import Mathlib

/-!
Verification development for the PSC mesh spatial-decomposition engine:
a shallow embedding of `src/bvh.c` and `src/convex_decomposition.c`
(data model from `stl_parser.h`, `bvh.h`, `convex_decomposition.h`),
with theorems C1–C10 settling the specified properties of that code.

Modelling conventions:
* C `float` values are modelled as exact rationals (`ℚ`); arithmetic that
  the claims depend on is exact in both worlds on the inputs considered.
* Heap allocation is assumed to succeed; `malloc`-failure branches are not
  modelled.  Ownership/free calls are no-ops under value semantics.
* `qsort_r` sorts by the centroid key and leaves the relative order of
  equal keys unspecified; the embedding uses an insertion sort over the
  same key.  No theorem below depends on the order of key-equal elements.
* Bounded C recursions that stop at a depth cap are rephrased structurally
  on `remaining = max_depth - depth`; the C test `depth >= max_depth` is
  exactly `remaining = 0`.
-/

namespace PSC

/-- Largest finite single-precision float, `FLT_MAX = (2 - 2^-23) * 2^127
= 2^128 - 2^104`, used by the C code as the sentinel initial value of
bounding-box folds. -/
def FLT_MAX : ℚ := 340282346638528859811704183484516925440

/-- The C update `if (val < cur) cur = val` of a running minimum. -/
def cmin (cur val : ℚ) : ℚ := if val < cur then val else cur

/-- The C update `if (val > cur) cur = val` of a running maximum. -/
def cmax (cur val : ℚ) : ℚ := if cur < val then val else cur

/-- A 3D point, modelling three C floats. -/
abbrev Vec3 := ℚ × ℚ × ℚ

/-- Array indexing `v[k]` for a 3-float coordinate array, `k = 0, 1, 2`.
Any other `k` selects x, matching the `default:` branch of the axis switch
in `bvh_get_center_coordinate` (only 0..2 are ever reachable). -/
def vcoord (v : Vec3) (k : ℕ) : ℚ :=
  if k = 1 then v.2.1 else if k = 2 then v.2.2 else v.1

/-- `stl_triangle_t`: a normal vector (present in the data model but unused
by the core) and three vertices. -/
structure Tri where
  normal : Vec3
  v0 : Vec3
  v1 : Vec3
  v2 : Vec3
deriving DecidableEq

/-- Zero triangle, used as the out-of-range default of list indexing
(the C code never indexes out of range on the paths verified here). -/
def defaultTri : Tri := ⟨(0,0,0), (0,0,0), (0,0,0), (0,0,0)⟩

instance : Inhabited Tri := ⟨defaultTri⟩

/-- The three vertices of a triangle in array order `vertices[0..2]`. -/
def Tri.verts (t : Tri) : List Vec3 := [t.v0, t.v1, t.v2]

/-- The 6-float bounds array `[min_x, min_y, min_z, max_x, max_y, max_z]`. -/
structure Box where
  minx : ℚ
  miny : ℚ
  minz : ℚ
  maxx : ℚ
  maxy : ℚ
  maxz : ℚ
deriving DecidableEq

/-- Reading `bounds[a]` for an axis `a = 0, 1, 2` (the min entries). -/
def Box.lo (b : Box) (a : ℕ) : ℚ :=
  if a = 1 then b.miny else if a = 2 then b.minz else b.minx

/-- Reading `bounds[a + 3]` for an axis `a = 0, 1, 2` (the max entries). -/
def Box.hi (b : Box) (a : ℕ) : ℚ :=
  if a = 1 then b.maxy else if a = 2 then b.maxz else b.maxx

/-- `stl_file_t`: the triangle list plus the whole-mesh bounding box
(the 80-byte header is irrelevant to the core; `num_triangles` is the
list length). -/
structure StlFile where
  triangles : List Tri
  bounds : Box
deriving DecidableEq

/-- Sentinel box before any contribution: mins at `FLT_MAX`, maxes at
`-FLT_MAX`, as initialised by `stl_calculate_bounds` and
`bvh_calculate_bounds`. -/
def boundsSentinel : Box :=
  ⟨FLT_MAX, FLT_MAX, FLT_MAX, -FLT_MAX, -FLT_MAX, -FLT_MAX⟩

/-- One vertex contribution to a bounds fold: per coordinate `k`, the C code
does `if (val < bounds[k]) bounds[k] = val` and the symmetric max update. -/
def updateBounds (b : Box) (v : Vec3) : Box :=
  ⟨cmin b.minx v.1, cmin b.miny v.2.1, cmin b.minz v.2.2,
   cmax b.maxx v.1, cmax b.maxy v.2.1, cmax b.maxz v.2.2⟩

/-- `stl_calculate_bounds`: fold every vertex of every triangle (in input
order) into the sentinel box. -/
def stl_calculate_bounds (tris : List Tri) : Box :=
  tris.foldl (fun b t => t.verts.foldl updateBounds b) boundsSentinel

/-- A mesh as handed to the core by the parser: triangles together with the
bounds computed by `stl_calculate_bounds`. -/
def mkStl (tris : List Tri) : StlFile := ⟨tris, stl_calculate_bounds tris⟩

/-! ## Bounding volume tree (`bvh.c`) -/

/-- `bvh_node_t`: tagged Leaf/Internal variant with its bounds. -/
inductive BvhNode where
  | leaf (bounds : Box) (triangle_indices : List ℕ)
  | internal (bounds : Box) (left : BvhNode) (right : BvhNode)
deriving DecidableEq

/-- The `bounds` field of a node. -/
def BvhNode.nodeBounds : BvhNode → Box
  | .leaf b _ => b
  | .internal b _ _ => b

/-- `bvh_get_center_coordinate`: mean of the three vertices, selected on
the requested axis (axes other than 0, 1, 2 fall back to x, as in the C
switch default). The C code averages all three axes and then selects;
per-axis the arithmetic is identical. -/
def bvh_get_center_coordinate (t : Tri) (axis : ℕ) : ℚ :=
  (vcoord t.v0 axis + vcoord t.v1 axis + vcoord t.v2 axis) / 3

/-- `bvh_compare_triangles`: the qsort_r comparator, -1/1 on strictly
ordered centroid coordinates and 0 on ties (no index tie-break). -/
def bvh_compare_triangles (tris : List Tri) (axis : ℕ) (idx_a idx_b : ℕ) : Int :=
  let coord_a := bvh_get_center_coordinate (tris.getD idx_a defaultTri) axis
  let coord_b := bvh_get_center_coordinate (tris.getD idx_b defaultTri) axis
  if coord_a < coord_b then -1 else if coord_b < coord_a then 1 else 0

/-- Insert an index into a list, keeping indices of smaller-or-equal key in
front; helper of the sort refinement below. -/
def sortInsert (key : ℕ → ℚ) (i : ℕ) : List ℕ → List ℕ
  | [] => [i]
  | j :: rest => if key i ≤ key j then i :: j :: rest else j :: sortInsert key i rest

/-- Insertion sort by a rational key. -/
def sortByKey (key : ℕ → ℚ) : List ℕ → List ℕ
  | [] => []
  | i :: rest => sortInsert key i (sortByKey key rest)

/-- `bvh_sort_triangles_by_axis`: sort the index list by the centroid
coordinate on the given axis.  The C code calls `qsort_r` with
`bvh_compare_triangles`, whose output order among key-equal indices is
unspecified; this embedding fixes one compliant order (insertion sort on
the same key).  No verified claim depends on the order of key ties. -/
def bvh_sort_triangles_by_axis (tris : List Tri) (idxs : List ℕ) (axis : ℕ) : List ℕ :=
  sortByKey (fun i => bvh_get_center_coordinate (tris.getD i defaultTri) axis) idxs

/-- All coordinate-`k` values of the vertices of the indexed triangles, in
the iteration order of `bvh_calculate_bounds` (triangles outer, vertices
inner). -/
def leafCoords (tris : List Tri) (idxs : List ℕ) (k : ℕ) : List ℚ :=
  idxs.flatMap (fun i => (tris.getD i defaultTri).verts.map (fun v => vcoord v k))

/-- Leaf case of `bvh_calculate_bounds`: per axis, fold min (resp. max)
over every vertex coordinate of the leaf's triangles, starting from the
`FLT_MAX` (resp. `-FLT_MAX`) sentinel. -/
def bvh_calculate_bounds_leaf (tris : List Tri) (idxs : List ℕ) : Box :=
  ⟨(leafCoords tris idxs 0).foldl cmin FLT_MAX,
   (leafCoords tris idxs 1).foldl cmin FLT_MAX,
   (leafCoords tris idxs 2).foldl cmin FLT_MAX,
   (leafCoords tris idxs 0).foldl cmax (-FLT_MAX),
   (leafCoords tris idxs 1).foldl cmax (-FLT_MAX),
   (leafCoords tris idxs 2).foldl cmax (-FLT_MAX)⟩

/-- Internal case of `bvh_calculate_bounds`: copy the left child's box and
expand each entry with the right child's (per-axis min of mins, max of
maxes). -/
def bvh_calculate_bounds_internal (l r : Box) : Box :=
  ⟨cmin l.minx r.minx, cmin l.miny r.miny, cmin l.minz r.minz,
   cmax l.maxx r.maxx, cmax l.maxy r.maxy, cmax l.maxz r.maxz⟩

/-- `bvh_build_recursive`.  The C recursion is bounded by the depth cap:
every recursive call increases `depth` by one and the function stops as
soon as `depth >= max_depth`.  The embedding recurses structurally on
`remaining = max_depth - depth`; `remaining = 0` is exactly the C test
`depth >= max_depth`.  `depth` is still carried for the axis choice
`depth % 3`.  The `sort_axis` parameter of the C function is dead inside
the recursion (the axis is recomputed from `depth`) and is omitted. -/
def bvh_build_recursive (tris : List Tri) (idxs : List ℕ) (depth : ℕ)
    (remaining : ℕ) (cap : ℕ) : Option BvhNode :=
  match remaining with
  | 0 =>
    if idxs.length = 0 then none
    else some (.leaf (bvh_calculate_bounds_leaf tris idxs) idxs)
  | r + 1 =>
    if idxs.length = 0 then none
    else if idxs.length ≤ cap then
      some (.leaf (bvh_calculate_bounds_leaf tris idxs) idxs)
    else
      let sorted := bvh_sort_triangles_by_axis tris idxs (depth % 3)
      let mid := idxs.length / 2
      match bvh_build_recursive tris (sorted.take mid) (depth + 1) r cap,
            bvh_build_recursive tris (sorted.drop mid) (depth + 1) r cap with
      | some lc, some rc =>
          some (.internal (bvh_calculate_bounds_internal lc.nodeBounds rc.nodeBounds) lc rc)
      | _, _ => none

/-- `bvh_tree_t`. `num_nodes` and `max_depth` are set to 0 by `bvh_create`
and never updated, as in the C code. -/
structure BvhTree where
  root : BvhNode
  num_nodes : ℕ
  max_depth : ℕ
  max_triangles_per_leaf : ℕ
deriving DecidableEq

/-- Hard depth cap of the build (the literal 20 in `bvh_create`). -/
def BVH_MAX_DEPTH : ℕ := 20

/-- `bvh_create`: fail on an empty mesh, otherwise build over the full
index list `0 .. num_triangles - 1` from depth 0 with the depth cap 20;
fail if the recursive build fails. -/
def bvh_create (stl : StlFile) (cap : ℕ) : Option BvhTree :=
  if stl.triangles.length = 0 then none
  else
    (bvh_build_recursive stl.triangles (List.range stl.triangles.length) 0 BVH_MAX_DEPTH cap).map
      (fun root => ⟨root, 0, 0, cap⟩)

/-- All triangle indices stored in the leaves, left to right. -/
def leafIndices : BvhNode → List ℕ
  | .leaf _ idxs => idxs
  | .internal _ l r => leafIndices l ++ leafIndices r

/-! ## Spatial partition (`spatial_partition_create` in `bvh.c`) -/

/-- Lower X bound of partition `j`: `min_x + j * partition_width`. -/
def spatial_partition_low (stl : StlFile) (num_partitions : ℕ) (j : ℕ) : ℚ :=
  stl.bounds.minx + j * ((stl.bounds.maxx - stl.bounds.minx) / num_partitions)

/-- Upper X bound of partition `j`: `min_x + (j + 1) * partition_width`. -/
def spatial_partition_high (stl : StlFile) (num_partitions : ℕ) (j : ℕ) : ℚ :=
  stl.bounds.minx + (j + 1) * ((stl.bounds.maxx - stl.bounds.minx) / num_partitions)

/-- The C assignment loop: `partition_id` starts at 0; scan partitions in
order and break at the first match, leaving 0 if none matches. -/
def scanFirstMatch (p : ℕ → Bool) : List ℕ → ℕ
  | [] => 0
  | j :: rest => if p j then j else scanFirstMatch p rest

/-- Triangle-to-partition assignment of `spatial_partition_create`: the
centroid X is tested against each partition slab `[low_j, high_j)` in
index order, first match wins, default 0. -/
def spatial_partition_assign (stl : StlFile) (num_partitions : ℕ) (t : Tri) : ℕ :=
  let center_x := (t.v0.1 + t.v1.1 + t.v2.1) / 3
  scanFirstMatch
    (fun j => decide (spatial_partition_low stl num_partitions j ≤ center_x) &&
              decide (center_x < spatial_partition_high stl num_partitions j))
    (List.range num_partitions)

/-! ## Convex decomposition (`convex_decomposition.c`)

The hull of a part created by `convex_part_create` has no vertices and its
`bounds` array is left uninitialized by the C code (`convex_part_create`
never writes `hull.bounds`, and no strategy ever adds hull vertices).  The
embedding therefore threads an arbitrary box `junk` standing for whatever
bytes the allocation happened to contain; every theorem below is proved
for every value of `junk`. -/

/-- `decomposition_strategy_t`. -/
inductive DecompStrategy where
  | approx_convex
  | exact_convex
  | hierarchical
  | voxel_based
deriving DecidableEq

/-- `convex_hull_t` (capacity field omitted; `num_vertices` is the list
length; `vertices == NULL` is the empty list). -/
structure ConvexHull where
  vertices : List Vec3
  bounds : Box
deriving DecidableEq

/-- `convex_part_t` (capacity field omitted; `num_triangles` is the list
length). -/
structure ConvexPart where
  hull : ConvexHull
  triangle_indices : List ℕ
  center : Vec3
  volume : ℚ
deriving DecidableEq

/-- `convex_decomposition_t` (capacity field omitted; `num_parts` is the
list length). -/
structure Decomp where
  parts : List ConvexPart
  strategy : DecompStrategy
  total_volume : ℚ
  decomposition_quality : ℚ
deriving DecidableEq

/-- `convex_part_create`: empty triangle list, zero centroid and volume,
hull with no vertices and uninitialized (`junk`) bounds. -/
def convex_part_create (junk : Box) : ConvexPart :=
  ⟨⟨[], junk⟩, [], (0, 0, 0), 0⟩

/-- `convex_part_add_triangle`: append one triangle index. -/
def convex_part_add_triangle (part : ConvexPart) (i : ℕ) : ConvexPart :=
  { part with triangle_indices := part.triangle_indices ++ [i] }

/-- A freshly created part filled by a loop of `convex_part_add_triangle`
calls, the idiom every strategy uses to populate a part. -/
def convex_part_with_triangles (junk : Box) (idxs : List ℕ) : ConvexPart :=
  idxs.foldl convex_part_add_triangle (convex_part_create junk)

/-- `convex_part_compute_properties`: no-op on an empty part; otherwise the
centroid is the plain mean of all 3·n vertex positions and the volume is
the proxy `num_triangles * 0.1` (the float literal `0.1f` is modelled by
the exact `1/10`; no claim depends on its rounding). -/
def convex_part_compute_properties (part : ConvexPart) (tris : List Tri) : ConvexPart :=
  if part.triangle_indices.length = 0 then part
  else
    let vs := part.triangle_indices.flatMap (fun i => (tris.getD i defaultTri).verts)
    let total_vertices : ℚ := vs.length
    { part with
      center := ((vs.map (fun v => v.1)).sum / total_vertices,
                 (vs.map (fun v => v.2.1)).sum / total_vertices,
                 (vs.map (fun v => v.2.2)).sum / total_vertices),
      volume := part.triangle_indices.length * (1 / 10) }

/-- `convex_decomposition_create`, with the strategy tag the caller stores
right after creating it (the C code initialises it to approx-convex and
each strategy overwrites it). -/
def convex_decomposition_create (strategy : DecompStrategy) : Decomp :=
  ⟨[], strategy, 0, 0⟩

/-- `convex_decomposition_add_part`: append the part and accumulate its
volume into `total_volume`. -/
def convex_decomposition_add_part (d : Decomp) (p : ConvexPart) : Decomp :=
  { d with parts := d.parts ++ [p], total_volume := d.total_volume + p.volume }

/-- `compute_volume`: zero for a hull with fewer than 4 vertices, otherwise
the volume of the hull's bounding box. -/
def compute_volume (hull : ConvexHull) : ℚ :=
  if hull.vertices.length < 4 then 0
  else (hull.bounds.maxx - hull.bounds.minx) * (hull.bounds.maxy - hull.bounds.miny) *
       (hull.bounds.maxz - hull.bounds.minz)

/-- `compute_part_concavity`: 0 for an empty part or a non-positive hull
volume, else `(hull_volume - part_volume) / hull_volume` clamped to
`[0, 1]`.  The `stl` argument is only null-checked by the C code. -/
def compute_part_concavity (part : ConvexPart) (stl : List Tri) : ℚ :=
  if part.triangle_indices.length = 0 then 0
  else
    let hull_volume := compute_volume part.hull
    if hull_volume ≤ 0 then 0
    else
      let concavity := (hull_volume - part.volume) / hull_volume
      let clamped_low := if concavity < 0 then 0 else concavity
      if 1 < clamped_low then 1 else clamped_low

/-- `compute_decomposition_quality`: 0 for an empty decomposition; else
`1 / (1 + variance)` where `variance` accumulates the squared deviations
of the part volumes from `total_volume / num_parts`. -/
def compute_decomposition_quality (d : Decomp) : ℚ :=
  if d.parts.length = 0 then 0
  else
    let n : ℚ := d.parts.length
    let avg_volume := d.total_volume / n
    let variance := (d.parts.foldl (fun acc p => acc + (p.volume - avg_volume) * (p.volume - avg_volume)) 0) / n
    1 / (1 + variance)

/-- The longest-axis selection shared by both splitting strategies:
`split_axis = 0`, overridden to 1 when `dy > dx && dy > dz`, else to 2
when `dz > dx && dz > dy`. -/
def longest_axis (b : Box) : ℕ :=
  let dx := b.maxx - b.minx
  let dy := b.maxy - b.miny
  let dz := b.maxz - b.minz
  if dy > dx ∧ dy > dz then 1 else if dz > dx ∧ dz > dy then 2 else 0

/-- `approximate_decompose_part`.  The C recursion has no depth bound of
its own (it relies on the concavity test accepting parts); the embedding
carries an explicit `fuel` for the recursion depth and returns the
decomposition unchanged when it runs out, which no reachable path of the
verified theorems does.  The inline centroid formula of the C code is
`bvh_get_center_coordinate` on the split axis. -/
def approximate_decompose_part (fuel : ℕ) (junk : Box) (part : ConvexPart)
    (tris : List Tri) (decomp : Decomp) (max_parts : ℕ)
    (concavity_tolerance : ℚ) : Decomp :=
  match fuel with
  | 0 => decomp
  | fuel + 1 =>
    if part.triangle_indices.length = 0 then decomp
    else if max_parts ≤ decomp.parts.length then
      convex_decomposition_add_part decomp part
    else
      let concavity := compute_part_concavity part tris
      if concavity ≤ concavity_tolerance ∨ part.triangle_indices.length < 10 then
        convex_decomposition_add_part decomp part
      else
        let split_axis := longest_axis part.hull.bounds
        let split_value := (part.hull.bounds.lo split_axis + part.hull.bounds.hi split_axis) / 2
        let split := part.triangle_indices.partition
          (fun i => decide (bvh_get_center_coordinate (tris.getD i defaultTri) split_axis < split_value))
        let left_part := convex_part_with_triangles junk split.1
        let right_part := convex_part_with_triangles junk split.2
        let d1 :=
          if left_part.triangle_indices.length ≠ 0 then
            approximate_decompose_part fuel junk
              (convex_part_compute_properties left_part tris) tris decomp max_parts
              concavity_tolerance
          else decomp
        if right_part.triangle_indices.length ≠ 0 then
          approximate_decompose_part fuel junk
            (convex_part_compute_properties right_part tris) tris d1 max_parts
            concavity_tolerance
        else d1

/-- `approximate_convex_decomposition`: start from one part holding every
triangle index, recursively decompose it, then stamp the quality score.
`quality_threshold` is accepted and unused, as in the C code. -/
def approximate_convex_decomposition (fuel : ℕ) (junk : Box) (tris : List Tri)
    (max_parts : ℕ) (quality_threshold concavity_tolerance : ℚ) : Option Decomp :=
  if tris.length = 0 then none
  else
    let current_part := convex_part_compute_properties
      (convex_part_with_triangles junk (List.range tris.length)) tris
    let d := approximate_decompose_part fuel junk current_part tris
      (convex_decomposition_create .approx_convex) max_parts concavity_tolerance
    some { d with decomposition_quality := compute_decomposition_quality d }

/-- `hierarchical_split_part`.  The C recursion stops as soon as
`depth >= max_depth || num_triangles < 10`; the embedding recurses
structurally on `remaining = max_depth - depth` (`remaining = 0` is the C
depth test).  Accepting a part copies its indices into a fresh part,
computes its properties and appends it. -/
def hierarchical_split_part (junk : Box) (tris : List Tri) (part : ConvexPart)
    (decomp : Decomp) (remaining : ℕ) (split_threshold : ℚ) : Decomp :=
  match remaining with
  | 0 =>
    convex_decomposition_add_part decomp
      (convex_part_compute_properties
        (convex_part_with_triangles junk part.triangle_indices) tris)
  | r + 1 =>
    if part.triangle_indices.length < 10 then
      convex_decomposition_add_part decomp
        (convex_part_compute_properties
          (convex_part_with_triangles junk part.triangle_indices) tris)
    else
      let split_axis := longest_axis part.hull.bounds
      let split_value := (part.hull.bounds.lo split_axis + part.hull.bounds.hi split_axis) / 2
      let split := part.triangle_indices.partition
        (fun i => decide (bvh_get_center_coordinate (tris.getD i defaultTri) split_axis < split_value))
      let left_part := convex_part_with_triangles junk split.1
      let right_part := convex_part_with_triangles junk split.2
      let d1 :=
        if left_part.triangle_indices.length ≠ 0 then
          hierarchical_split_part junk tris
            (convex_part_compute_properties left_part tris) decomp r split_threshold
        else decomp
      if right_part.triangle_indices.length ≠ 0 then
        hierarchical_split_part junk tris
          (convex_part_compute_properties right_part tris) d1 r split_threshold
      else d1

/-- `hierarchical_decomposition`: split the all-triangle root part down to
`max_depth`, then stamp the quality score. -/
def hierarchical_decomposition (junk : Box) (stl : StlFile) (max_depth : ℕ)
    (split_threshold : ℚ) : Option Decomp :=
  if stl.triangles.length = 0 then none
  else
    let root_part := convex_part_compute_properties
      (convex_part_with_triangles junk (List.range stl.triangles.length)) stl.triangles
    let d := hierarchical_split_part junk stl.triangles root_part
      (convex_decomposition_create .hierarchical) max_depth split_threshold
    some { d with decomposition_quality := compute_decomposition_quality d }

/-! ### Voxel-based strategy -/

/-- C cast of a rational to `int`: truncation toward zero. -/
def truncZ (q : ℚ) : ℤ := if q < 0 then -((-q).floor) else q.floor

/-- Grid size on one axis: `(int)((hi - lo) / voxel_size) + 1`. -/
def voxel_grid_size (lo hi voxel_size : ℚ) : ℤ := truncZ ((hi - lo) / voxel_size) + 1

/-- The voxel a triangle's centroid falls into. -/
def voxel_index (stl : StlFile) (voxel_size : ℚ) (t : Tri) : ℤ × ℤ × ℤ :=
  (truncZ ((bvh_get_center_coordinate t 0 - stl.bounds.minx) / voxel_size),
   truncZ ((bvh_get_center_coordinate t 1 - stl.bounds.miny) / voxel_size),
   truncZ ((bvh_get_center_coordinate t 2 - stl.bounds.minz) / voxel_size))

/-- The bound check guarding the counting pass. -/
def voxel_in_range (stl : StlFile) (voxel_size : ℚ) (c : ℤ × ℤ × ℤ) : Prop :=
  0 ≤ c.1 ∧ c.1 < voxel_grid_size stl.bounds.minx stl.bounds.maxx voxel_size ∧
  0 ≤ c.2.1 ∧ c.2.1 < voxel_grid_size stl.bounds.miny stl.bounds.maxy voxel_size ∧
  0 ≤ c.2.2 ∧ c.2.2 < voxel_grid_size stl.bounds.minz stl.bounds.maxz voxel_size

instance (stl : StlFile) (voxel_size : ℚ) (c : ℤ × ℤ × ℤ) :
    Decidable (voxel_in_range stl voxel_size c) := by
  unfold voxel_in_range; infer_instance

/-- The counting pass: `voxel_grid[c]` after the first triangle loop, the
number of triangles whose (in-range) voxel is `c`. -/
def voxel_count (stl : StlFile) (voxel_size : ℚ) (c : ℤ × ℤ × ℤ) : ℕ :=
  (stl.triangles.filter (fun t =>
    decide (voxel_in_range stl voxel_size (voxel_index stl voxel_size t)) &&
    decide (voxel_index stl voxel_size t = c))).length

/-- The fill pass for one cell: the indices `i` whose triangle's voxel
coordinates equal the cell's. -/
def voxel_part_indices (stl : StlFile) (voxel_size : ℚ) (c : ℤ × ℤ × ℤ) : List ℕ :=
  (List.range stl.triangles.length).filter
    (fun i => decide (voxel_index stl voxel_size (stl.triangles.getD i defaultTri) = c))

/-- The triple loop of `voxel_based_decomposition` flattened: x outer, y
middle, z inner, in increasing order. -/
def voxel_cells (nx ny nz : ℤ) : List (ℤ × ℤ × ℤ) :=
  (List.range nx.toNat).flatMap (fun x =>
    (List.range ny.toNat).flatMap (fun y =>
      (List.range nz.toNat).map (fun z => (Int.ofNat x, Int.ofNat y, Int.ofNat z))))

/-- Body of the part-emission loop for one cell: emit a part when the cell
count reaches the threshold and the filled part is non-empty. -/
def voxel_emit (junk : Box) (stl : StlFile) (voxel_size : ℚ)
    (min_triangles_per_voxel : ℕ) (d : Decomp) (c : ℤ × ℤ × ℤ) : Decomp :=
  if min_triangles_per_voxel ≤ voxel_count stl voxel_size c then
    let idxs := voxel_part_indices stl voxel_size c
    if idxs.length ≠ 0 then
      convex_decomposition_add_part d
        (convex_part_compute_properties (convex_part_with_triangles junk idxs) stl.triangles)
    else d
  else d

/-- `voxel_based_decomposition`: fail on an empty mesh or non-positive
voxel size; bucket triangles by centroid, emit one part per sufficiently
populated cell, stamp the quality score. -/
def voxel_based_decomposition (junk : Box) (stl : StlFile) (voxel_size : ℚ)
    (min_triangles_per_voxel : ℕ) : Option Decomp :=
  if stl.triangles.length = 0 ∨ voxel_size ≤ 0 then none
  else
    let nx := voxel_grid_size stl.bounds.minx stl.bounds.maxx voxel_size
    let ny := voxel_grid_size stl.bounds.miny stl.bounds.maxy voxel_size
    let nz := voxel_grid_size stl.bounds.minz stl.bounds.maxz voxel_size
    let d := (voxel_cells nx ny nz).foldl
      (voxel_emit junk stl voxel_size min_triangles_per_voxel)
      (convex_decomposition_create .voxel_based)
    some { d with decomposition_quality := compute_decomposition_quality d }

/-! ## Spec-side definitions, used only to state refinement claims -/

/-- Modelled from the spec: the population variance of a list of values
around their mean ("variance is the population variance of the (proxy)
part volumes around their mean"). -/
def population_variance (vs : List ℚ) : ℚ :=
  ((vs.map (fun v => (v - vs.sum / vs.length) ^ 2)).sum) / vs.length

/-! ## Concrete meshes used by the witnesses -/

/-- A degenerate triangle whose three vertices sit at `(x, 0, 0)`. -/
def triAt (x : ℚ) : Tri := ⟨(0, 0, 0), (x, 0, 0), (x, 0, 0), (x, 0, 0)⟩

/-- Two-triangle witness mesh with bounds `[0,10]` on X. -/
def wMesh : StlFile := mkStl [triAt 0, triAt 10]

/-- Ten-triangle witness mesh: seven triangles clustered at the origin and
three at `x = 10`. -/
def wMeshBig : StlFile := mkStl (List.replicate 7 (triAt 0) ++ List.replicate 3 (triAt 10))

/-- An all-zero box, used as the arbitrary value of uninitialized hull
bounds in witnesses. -/
def box0 : Box := ⟨0, 0, 0, 0, 0, 0⟩

/-- Fallback tree for `Option.getD` in witnesses. -/
def defTree : BvhTree := ⟨.leaf boundsSentinel [], 0, 0, 0⟩

/-- Fallback decomposition for `Option.getD` in witnesses. -/
def defDecomp : Decomp := convex_decomposition_create .approx_convex

/-! ## Generic helper lemmas -/

theorem foldl_preserves {α β : Type} (P : α → Prop) (f : α → β → α)
    (hstep : ∀ a b, P a → P (f a b)) : ∀ (l : List β) (a : α), P a → P (l.foldl f a) := by
  intro l
  induction l with
  | nil => intro a ha; exact ha
  | cons b bs ih => intro a ha; exact ih (f a b) (hstep a b ha)

theorem foldl_add_eq_sum {α : Type} (f : α → ℚ) :
    ∀ (l : List α) (c : ℚ), l.foldl (fun acc x => acc + f x) c = c + (l.map f).sum := by
  intro l
  induction l with
  | nil => intro c; simp
  | cons x xs ih => intro c; simp [ih, add_assoc]

theorem sum_nonneg_of_nonneg : ∀ l : List ℚ, (∀ x ∈ l, 0 ≤ x) → 0 ≤ l.sum := by
  intro l
  induction l with
  | nil => intro _; simp
  | cons x xs ih =>
    intro h
    simp only [List.sum_cons]
    have hx := h x (List.mem_cons_self x xs)
    have hxs := ih (fun y hy => h y (List.mem_cons_of_mem x hy))
    linarith

theorem sum_nonneg_eq_zero : ∀ l : List ℚ, (∀ x ∈ l, 0 ≤ x) → l.sum = 0 → ∀ x ∈ l, x = 0 := by
  intro l
  induction l with
  | nil => intro _ _ x hx; simp at hx
  | cons y ys ih =>
    intro hpos hsum x hx
    have hy := hpos y (List.mem_cons_self y ys)
    have hys : ∀ z ∈ ys, 0 ≤ z := fun z hz => hpos z (List.mem_cons_of_mem y hz)
    have hsum' : y + ys.sum = 0 := by simpa using hsum
    have hyssum := sum_nonneg_of_nonneg ys hys
    have hy0 : y = 0 := by linarith
    have hys0 : ys.sum = 0 := by linarith
    rcases List.mem_cons.mp hx with h | h
    · exact h.trans hy0
    · exact ih hys hys0 x h

theorem sum_of_constant : ∀ l : List ℚ, ∀ c : ℚ, (∀ x ∈ l, x = c) → l.sum = l.length * c := by
  intro l
  induction l with
  | nil => intro c _; simp
  | cons y ys ih =>
    intro c h
    have hy := h y (List.mem_cons_self y ys)
    have := ih c (fun z hz => h z (List.mem_cons_of_mem y hz))
    simp only [List.sum_cons, List.length_cons, hy, this]
    push_cast
    ring

/-! ## Sorting: permutation lemmas -/

theorem sortInsert_perm (key : ℕ → ℚ) (i : ℕ) :
    ∀ l : List ℕ, (sortInsert key i l).Perm (i :: l) := by
  intro l
  induction l with
  | nil => simp [sortInsert]
  | cons j rest ih =>
    by_cases h : key i ≤ key j
    · simp [sortInsert, h]
    · simp only [sortInsert, if_neg h]
      exact (ih.cons j).trans (List.Perm.swap i j rest)

theorem sortByKey_perm (key : ℕ → ℚ) : ∀ l : List ℕ, (sortByKey key l).Perm l := by
  intro l
  induction l with
  | nil => simp [sortByKey]
  | cons i rest ih =>
    exact (sortInsert_perm key i (sortByKey key rest)).trans (ih.cons i)

theorem bvh_sort_perm (tris : List Tri) (idxs : List ℕ) (axis : ℕ) :
    (bvh_sort_triangles_by_axis tris idxs axis).Perm idxs :=
  sortByKey_perm _ idxs

/-! ## Claim C1: leaf coverage of the built tree -/

theorem bvh_build_leafIndices_perm (tris : List Tri) :
    ∀ (remaining : ℕ) (idxs : List ℕ) (depth cap : ℕ) (node : BvhNode),
      bvh_build_recursive tris idxs depth remaining cap = some node →
      (leafIndices node).Perm idxs := by
  intro remaining
  induction remaining with
  | zero =>
    intro idxs depth cap node h
    by_cases h0 : idxs.length = 0
    · simp [bvh_build_recursive, h0] at h
    · simp only [bvh_build_recursive, if_neg h0, Option.some.injEq] at h
      subst h
      exact List.Perm.refl _
  | succ r ih =>
    intro idxs depth cap node h
    by_cases h0 : idxs.length = 0
    · simp [bvh_build_recursive, h0] at h
    · by_cases hcap : idxs.length ≤ cap
      · simp only [bvh_build_recursive, if_neg h0, if_pos hcap, Option.some.injEq] at h
        subst h
        exact List.Perm.refl _
      · simp only [bvh_build_recursive, if_neg h0, if_neg hcap] at h
        set sorted := bvh_sort_triangles_by_axis tris idxs (depth % 3) with hsorted
        set mid := idxs.length / 2 with hmid
        cases hL : bvh_build_recursive tris (sorted.take mid) (depth + 1) r cap with
        | none => rw [hL] at h; simp at h
        | some lc =>
          cases hR : bvh_build_recursive tris (sorted.drop mid) (depth + 1) r cap with
          | none => rw [hL, hR] at h; simp at h
          | some rc =>
            rw [hL, hR] at h
            simp only [Option.some.injEq] at h
            subst h
            have pl := ih (sorted.take mid) (depth + 1) cap lc hL
            have pr := ih (sorted.drop mid) (depth + 1) cap rc hR
            have happ : (sorted.take mid ++ sorted.drop mid) = sorted :=
              List.take_append_drop mid sorted
            have hperm : (leafIndices lc ++ leafIndices rc).Perm sorted := by
              rw [← happ]; exact pl.append pr
            exact hperm.trans (bvh_sort_perm tris idxs (depth % 3))

/-- C1: for every tree built by `bvh_create` from a non-empty mesh, the
multiset of triangle indices across all leaves equals the full input index
set `0 .. num_triangles - 1`: every index in exactly one leaf, no
duplicates, no omissions (list permutation with the duplicate-free range
is exactly that multiset equality). -/
theorem C1_bvh_leaf_coverage (stl : StlFile) (cap : ℕ) (t : BvhTree)
    (h : bvh_create stl cap = some t) :
    (leafIndices t.root).Perm (List.range stl.triangles.length) := by
  unfold bvh_create at h
  by_cases h0 : stl.triangles.length = 0
  · simp [h0] at h
  · simp only [if_neg h0] at h
    rcases Option.map_eq_some'.mp h with ⟨root, hroot, ht⟩
    have := bvh_build_leafIndices_perm stl.triangles BVH_MAX_DEPTH
      (List.range stl.triangles.length) 0 cap root hroot
    rw [← ht]
    exact this

/-! ## Claim C5: bounds invariant of every node -/

theorem cmin_le_left (a b : ℚ) : cmin a b ≤ a := by
  unfold cmin; split
  · exact le_of_lt (by assumption)
  · exact le_refl a

theorem cmin_le_right (a b : ℚ) : cmin a b ≤ b := by
  unfold cmin; split
  · exact le_refl b
  · exact le_of_not_lt (by assumption)

theorem cmin_eq_or (a b : ℚ) : cmin a b = a ∨ cmin a b = b := by
  unfold cmin; split
  · exact Or.inr rfl
  · exact Or.inl rfl

theorem cmax_ge_left (a b : ℚ) : a ≤ cmax a b := by
  unfold cmax; split
  · exact le_of_lt (by assumption)
  · exact le_refl a

theorem cmax_ge_right (a b : ℚ) : b ≤ cmax a b := by
  unfold cmax; split
  · exact le_refl b
  · exact le_of_not_lt (by assumption)

theorem cmax_eq_or (a b : ℚ) : cmax a b = a ∨ cmax a b = b := by
  unfold cmax; split
  · exact Or.inr rfl
  · exact Or.inl rfl

theorem foldl_cmin_le : ∀ (l : List ℚ) (a : ℚ),
    l.foldl cmin a ≤ a ∧ ∀ x ∈ l, l.foldl cmin a ≤ x := by
  intro l
  induction l with
  | nil => intro a; exact ⟨le_refl a, by simp⟩
  | cons x xs ih =>
    intro a
    have h := ih (cmin a x)
    simp only [List.foldl_cons]
    refine ⟨h.1.trans (cmin_le_left a x), ?_⟩
    intro y hy
    rcases List.mem_cons.mp hy with rfl | hy
    · exact h.1.trans (cmin_le_right a y)
    · exact h.2 y hy

theorem foldl_cmin_eq_or_mem : ∀ (l : List ℚ) (a : ℚ),
    l.foldl cmin a = a ∨ l.foldl cmin a ∈ l := by
  intro l
  induction l with
  | nil => intro a; exact Or.inl rfl
  | cons x xs ih =>
    intro a
    simp only [List.foldl_cons]
    rcases ih (cmin a x) with h | h
    · rcases cmin_eq_or a x with h2 | h2
      · exact Or.inl (h.trans h2)
      · exact Or.inr (by rw [h, h2]; exact List.mem_cons_self x xs)
    · exact Or.inr (List.mem_cons_of_mem x h)

theorem foldl_cmax_ge : ∀ (l : List ℚ) (a : ℚ),
    a ≤ l.foldl cmax a ∧ ∀ x ∈ l, x ≤ l.foldl cmax a := by
  intro l
  induction l with
  | nil => intro a; exact ⟨le_refl a, by simp⟩
  | cons x xs ih =>
    intro a
    have h := ih (cmax a x)
    simp only [List.foldl_cons]
    refine ⟨(cmax_ge_left a x).trans h.1, ?_⟩
    intro y hy
    rcases List.mem_cons.mp hy with rfl | hy
    · exact (cmax_ge_right a y).trans h.1
    · exact h.2 y hy

theorem foldl_cmax_eq_or_mem : ∀ (l : List ℚ) (a : ℚ),
    l.foldl cmax a = a ∨ l.foldl cmax a ∈ l := by
  intro l
  induction l with
  | nil => intro a; exact Or.inl rfl
  | cons x xs ih =>
    intro a
    simp only [List.foldl_cons]
    rcases ih (cmax a x) with h | h
    · rcases cmax_eq_or a x with h2 | h2
      · exact Or.inl (h.trans h2)
      · exact Or.inr (by rw [h, h2]; exact List.mem_cons_self x xs)
    · exact Or.inr (List.mem_cons_of_mem x h)

/-- The value `m` is the exact minimum of the list. -/
def isLeastOf (m : ℚ) (l : List ℚ) : Prop := m ∈ l ∧ ∀ x ∈ l, m ≤ x

/-- The value `m` is the exact maximum of the list. -/
def isGreatestOf (m : ℚ) (l : List ℚ) : Prop := m ∈ l ∧ ∀ x ∈ l, x ≤ m

theorem foldl_cmin_isLeast (l : List ℚ) (a : ℚ) (hne : l ≠ [])
    (hb : ∀ x ∈ l, x ≤ a) : isLeastOf (l.foldl cmin a) l := by
  have hle := foldl_cmin_le l a
  rcases foldl_cmin_eq_or_mem l a with h | h
  · rcases l with _ | ⟨y, ys⟩
    · exact absurd rfl hne
    · have h1 : (y :: ys).foldl cmin a ≤ y := hle.2 y (List.mem_cons_self y ys)
      have h2 : y ≤ a := hb y (List.mem_cons_self y ys)
      have h3 : (y :: ys).foldl cmin a = y := le_antisymm h1 (by rw [h]; exact h2)
      exact ⟨by rw [h3]; exact List.mem_cons_self y ys, hle.2⟩
  · exact ⟨h, hle.2⟩

theorem foldl_cmax_isGreatest (l : List ℚ) (a : ℚ) (hne : l ≠ [])
    (hb : ∀ x ∈ l, a ≤ x) : isGreatestOf (l.foldl cmax a) l := by
  have hge := foldl_cmax_ge l a
  rcases foldl_cmax_eq_or_mem l a with h | h
  · rcases l with _ | ⟨y, ys⟩
    · exact absurd rfl hne
    · have h1 : y ≤ (y :: ys).foldl cmax a := hge.2 y (List.mem_cons_self y ys)
      have h2 : a ≤ y := hb y (List.mem_cons_self y ys)
      have h3 : (y :: ys).foldl cmax a = y := le_antisymm (by rw [h]; exact h2) h1
      exact ⟨by rw [h3]; exact List.mem_cons_self y ys, hge.2⟩
  · exact ⟨h, hge.2⟩

/-- All six coordinates of a vertex fit in the finite float range; true of
every input the C program can have read from a file. -/
def vec_bounded (v : Vec3) : Prop :=
  -FLT_MAX ≤ v.1 ∧ v.1 ≤ FLT_MAX ∧ -FLT_MAX ≤ v.2.1 ∧ v.2.1 ≤ FLT_MAX ∧
  -FLT_MAX ≤ v.2.2 ∧ v.2.2 ≤ FLT_MAX

instance (v : Vec3) : Decidable (vec_bounded v) := by
  unfold vec_bounded; infer_instance

/-- Every vertex of every triangle is float-bounded. -/
def coords_bounded (tris : List Tri) : Prop := ∀ t ∈ tris, ∀ v ∈ t.verts, vec_bounded v

instance (tris : List Tri) : Decidable (coords_bounded tris) := by
  unfold coords_bounded; infer_instance

theorem vcoord_bounded (v : Vec3) (k : ℕ) (h : vec_bounded v) :
    -FLT_MAX ≤ vcoord v k ∧ vcoord v k ≤ FLT_MAX := by
  obtain ⟨h1, h2, h3, h4, h5, h6⟩ := h
  unfold vcoord
  split
  · exact ⟨h3, h4⟩
  · split
    · exact ⟨h5, h6⟩
    · exact ⟨h1, h2⟩

theorem getD_vec_bounded (tris : List Tri) (h : coords_bounded tris) (i : ℕ) :
    ∀ v ∈ (tris.getD i defaultTri).verts, vec_bounded v := by
  by_cases hi : i < tris.length
  · intro v hv
    have hmem : tris.getD i defaultTri ∈ tris := by
      rw [List.getD_eq_getElem tris defaultTri hi]
      exact List.getElem_mem hi
    exact h _ hmem v hv
  · intro v hv
    have : tris.getD i defaultTri = defaultTri := by
      rw [List.getD_eq_getElem?_getD, List.getElem?_eq_none (le_of_not_lt hi)]
      rfl
    rw [this] at hv
    simp only [defaultTri, Tri.verts, List.mem_cons, List.not_mem_nil, or_false] at hv
    rcases hv with rfl | rfl | rfl <;> decide

theorem leafCoords_bounded (tris : List Tri) (h : coords_bounded tris)
    (idxs : List ℕ) (k : ℕ) :
    ∀ x ∈ leafCoords tris idxs k, -FLT_MAX ≤ x ∧ x ≤ FLT_MAX := by
  intro x hx
  rcases List.mem_flatMap.mp hx with ⟨i, _, hxi⟩
  rcases List.mem_map.mp hxi with ⟨v, hv, rfl⟩
  exact vcoord_bounded v k (getD_vec_bounded tris h i v hv)

theorem leafCoords_ne_nil (tris : List Tri) (idxs : List ℕ) (k : ℕ)
    (h : idxs ≠ []) : leafCoords tris idxs k ≠ [] := by
  rcases idxs with _ | ⟨i, rest⟩
  · exact absurd rfl h
  · simp [leafCoords, Tri.verts]

/-- C5's property, node by node: a leaf's box stores the exact per-axis
minimum and maximum over all vertex coordinates of its triangles, an
internal node's box is exactly the per-axis union of its children's. -/
def bounds_invariant (tris : List Tri) : BvhNode → Prop
  | .leaf b idxs =>
      isLeastOf b.minx (leafCoords tris idxs 0) ∧
      isLeastOf b.miny (leafCoords tris idxs 1) ∧
      isLeastOf b.minz (leafCoords tris idxs 2) ∧
      isGreatestOf b.maxx (leafCoords tris idxs 0) ∧
      isGreatestOf b.maxy (leafCoords tris idxs 1) ∧
      isGreatestOf b.maxz (leafCoords tris idxs 2)
  | .internal b l r =>
      b = bvh_calculate_bounds_internal l.nodeBounds r.nodeBounds ∧
      bounds_invariant tris l ∧ bounds_invariant tris r

theorem leaf_bounds_invariant (tris : List Tri) (hb : coords_bounded tris)
    (idxs : List ℕ) (hne : idxs ≠ []) :
    bounds_invariant tris (.leaf (bvh_calculate_bounds_leaf tris idxs) idxs) := by
  have hmin : ∀ k, isLeastOf ((leafCoords tris idxs k).foldl cmin FLT_MAX)
      (leafCoords tris idxs k) := fun k =>
    foldl_cmin_isLeast _ _ (leafCoords_ne_nil tris idxs k hne)
      (fun x hx => (leafCoords_bounded tris hb idxs k x hx).2)
  have hmax : ∀ k, isGreatestOf ((leafCoords tris idxs k).foldl cmax (-FLT_MAX))
      (leafCoords tris idxs k) := fun k =>
    foldl_cmax_isGreatest _ _ (leafCoords_ne_nil tris idxs k hne)
      (fun x hx => (leafCoords_bounded tris hb idxs k x hx).1)
  exact ⟨hmin 0, hmin 1, hmin 2, hmax 0, hmax 1, hmax 2⟩

theorem bvh_build_bounds_invariant (tris : List Tri) (hb : coords_bounded tris) :
    ∀ (remaining : ℕ) (idxs : List ℕ) (depth cap : ℕ) (node : BvhNode),
      bvh_build_recursive tris idxs depth remaining cap = some node →
      bounds_invariant tris node := by
  intro remaining
  induction remaining with
  | zero =>
    intro idxs depth cap node h
    by_cases h0 : idxs.length = 0
    · simp [bvh_build_recursive, h0] at h
    · simp only [bvh_build_recursive, if_neg h0, Option.some.injEq] at h
      subst h
      exact leaf_bounds_invariant tris hb idxs (fun hnil => h0 (by simp [hnil]))
  | succ r ih =>
    intro idxs depth cap node h
    by_cases h0 : idxs.length = 0
    · simp [bvh_build_recursive, h0] at h
    · by_cases hcap : idxs.length ≤ cap
      · simp only [bvh_build_recursive, if_neg h0, if_pos hcap, Option.some.injEq] at h
        subst h
        exact leaf_bounds_invariant tris hb idxs (fun hnil => h0 (by simp [hnil]))
      · simp only [bvh_build_recursive, if_neg h0, if_neg hcap] at h
        set sorted := bvh_sort_triangles_by_axis tris idxs (depth % 3) with hsorted
        set mid := idxs.length / 2 with hmid
        cases hL : bvh_build_recursive tris (sorted.take mid) (depth + 1) r cap with
        | none => rw [hL] at h; simp at h
        | some lc =>
          cases hR : bvh_build_recursive tris (sorted.drop mid) (depth + 1) r cap with
          | none => rw [hL, hR] at h; simp at h
          | some rc =>
            rw [hL, hR] at h
            simp only [Option.some.injEq] at h
            subst h
            exact ⟨rfl, ih (sorted.take mid) (depth + 1) cap lc hL,
                   ih (sorted.drop mid) (depth + 1) cap rc hR⟩

/-- C5: every node of a tree built by `bvh_create` over float-bounded
input satisfies the bounds invariant: an internal node's box is the exact
per-axis union of its children's boxes; a leaf's box is the exact per-axis
min/max over all vertex positions of its triangles. -/
theorem C5_bvh_bounds_invariant (stl : StlFile) (cap : ℕ) (t : BvhTree)
    (hb : coords_bounded stl.triangles) (h : bvh_create stl cap = some t) :
    bounds_invariant stl.triangles t.root := by
  unfold bvh_create at h
  by_cases h0 : stl.triangles.length = 0
  · simp [h0] at h
  · simp only [if_neg h0] at h
    rcases Option.map_eq_some'.mp h with ⟨root, hroot, ht⟩
    rw [← ht]
    exact bvh_build_bounds_invariant stl.triangles hb BVH_MAX_DEPTH
      (List.range stl.triangles.length) 0 cap root hroot

unseal Rat.add Rat.mul Rat.sub Rat.inv in
theorem C5_bvh_bounds_invariant_witness :
    bounds_invariant wMesh.triangles ((bvh_create wMesh 1).getD defTree).root :=
  C5_bvh_bounds_invariant wMesh 1 _ (by decide) (by decide)

/-! ## Claim C4: triangle-to-partition assignment ties -/

theorem scanFirstMatch_cons_true (p : ℕ → Bool) (j : ℕ) (l : List ℕ)
    (h : p j = true) : scanFirstMatch p (j :: l) = j := by
  simp [scanFirstMatch, h]

theorem scanFirstMatch_append_false (p : ℕ → Bool) :
    ∀ (l₁ l₂ : List ℕ), (∀ j ∈ l₁, p j = false) →
      scanFirstMatch p (l₁ ++ l₂) = scanFirstMatch p l₂ := by
  intro l₁
  induction l₁ with
  | nil => intro l₂ _; rfl
  | cons j rest ih =>
    intro l₂ h
    have hj : p j = false := h j (List.mem_cons_self j rest)
    simp only [List.cons_append, scanFirstMatch, hj, Bool.false_eq_true, if_false]
    exact ih l₂ (fun i hi => h i (List.mem_cons_of_mem j hi))

theorem scanFirstMatch_all_false (p : ℕ → Bool) :
    ∀ l : List ℕ, (∀ j ∈ l, p j = false) → scanFirstMatch p l = 0 := by
  intro l
  induction l with
  | nil => intro _; rfl
  | cons j rest ih =>
    intro h
    have hj : p j = false := h j (List.mem_cons_self j rest)
    simp only [scanFirstMatch, hj, Bool.false_eq_true, if_false]
    exact ih (fun i hi => h i (List.mem_cons_of_mem j hi))

/-- C4 (amended): in `spatial_partition_create` the half-open slabs make a
centroid lying exactly on an interior boundary `min_x + k·w` land in the
higher-starting partition `k`; but a centroid equal to the mesh's maximum
X matches no slab at all (the last slab's upper bound is exclusive too)
and receives the scan's default partition id 0, not `N - 1`. -/
theorem C4_partition_assignment_amended (stl : StlFile) (N : ℕ)
    (h1 : 1 ≤ N) (h2 : stl.bounds.minx < stl.bounds.maxx) :
    (∀ (t : Tri) (k : ℕ), 0 < k → k < N →
        (t.v0.1 + t.v1.1 + t.v2.1) / 3 =
          stl.bounds.minx + k * ((stl.bounds.maxx - stl.bounds.minx) / N) →
        spatial_partition_assign stl N t = k) ∧
    (∀ t : Tri, (t.v0.1 + t.v1.1 + t.v2.1) / 3 = stl.bounds.maxx →
        spatial_partition_assign stl N t = 0) := by
  have hN : (0 : ℚ) < N := by exact_mod_cast Nat.lt_of_lt_of_le Nat.zero_lt_one h1
  have hN0 : (N : ℚ) ≠ 0 := ne_of_gt hN
  have hwpos : 0 < (stl.bounds.maxx - stl.bounds.minx) / N :=
    div_pos (sub_pos.mpr h2) hN
  set w := (stl.bounds.maxx - stl.bounds.minx) / N with hw
  have hNw : stl.bounds.minx + N * w = stl.bounds.maxx := by
    rw [hw, mul_div_assoc']
    field_simp
  constructor
  · intro t k hk hkN hc
    simp only [spatial_partition_assign]
    have hsplit : List.range N = List.range k ++ (List.range (N - k)).map (fun j => k + j) := by
      conv_lhs => rw [show N = k + (N - k) by omega]
      rw [List.range_add]
    rw [hsplit, scanFirstMatch_append_false]
    · obtain ⟨m, hm⟩ := Nat.exists_eq_succ_of_ne_zero (show N - k ≠ 0 by omega)
      rw [hm, List.range_succ_eq_map]
      simp only [List.map_cons, Nat.add_zero]
      apply scanFirstMatch_cons_true
      have hlow : spatial_partition_low stl N k ≤ (t.v0.1 + t.v1.1 + t.v2.1) / 3 := by
        rw [hc]; exact le_refl _
      have hhigh : (t.v0.1 + t.v1.1 + t.v2.1) / 3 < spatial_partition_high stl N k := by
        rw [hc]
        unfold spatial_partition_high
        rw [← hw]
        nlinarith [hwpos]
      simp [hlow, hhigh]
    · intro j hj
      have hjk : j < k := List.mem_range.mp hj
      have hnot : ¬ ((t.v0.1 + t.v1.1 + t.v2.1) / 3 < spatial_partition_high stl N j) := by
        rw [hc]
        unfold spatial_partition_high
        rw [← hw]
        have hcast : ((j : ℚ) + 1) ≤ (k : ℚ) := by exact_mod_cast hjk
        nlinarith [le_of_lt hwpos]
      simp [decide_eq_false hnot]
  · intro t hc
    simp only [spatial_partition_assign]
    apply scanFirstMatch_all_false
    intro j hj
    have hjN : j < N := List.mem_range.mp hj
    have hnot : ¬ ((t.v0.1 + t.v1.1 + t.v2.1) / 3 < spatial_partition_high stl N j) := by
      rw [hc]
      unfold spatial_partition_high
      rw [← hw]
      have hcast : ((j : ℚ) + 1) ≤ (N : ℚ) := by exact_mod_cast hjN
      nlinarith [le_of_lt hwpos]
    simp [decide_eq_false hnot]

unseal Rat.add Rat.mul Rat.sub Rat.inv in
theorem C4_partition_assignment_witness :
    (∀ (t : Tri) (k : ℕ), 0 < k → k < 2 →
        (t.v0.1 + t.v1.1 + t.v2.1) / 3 =
          wMesh.bounds.minx + k * ((wMesh.bounds.maxx - wMesh.bounds.minx) / 2) →
        spatial_partition_assign wMesh 2 t = k) ∧
    (∀ t : Tri, (t.v0.1 + t.v1.1 + t.v2.1) / 3 = wMesh.bounds.maxx →
        spatial_partition_assign wMesh 2 t = 0) :=
  C4_partition_assignment_amended wMesh 2 (by decide) (by decide)

unseal Rat.add Rat.mul Rat.sub Rat.inv in
theorem C4_partition_maxx_counterexample :
    spatial_partition_assign wMesh 2 (triAt 10) = 0 ∧
    (triAt 10) ∈ wMesh.triangles ∧
    (triAt 10).v0.1 = wMesh.bounds.maxx ∧
    spatial_partition_assign wMesh 2 (triAt 10) ≠ 2 - 1 := by
  refine ⟨by decide, by decide, by decide, by decide⟩

/-! ## Claim C8: the sort comparator gives no index tie-break -/

/-- Two distinct triangles whose X centroids are both 3. -/
def c8_tris : List Tri :=
  [⟨(0, 0, 0), (3, 0, 0), (3, 1, 0), (3, 2, 0)⟩,
   ⟨(0, 0, 0), (2, 5, 0), (3, 5, 0), (4, 5, 0)⟩]

unseal Rat.add Rat.mul Rat.sub Rat.inv in
/-- C8 evidence: `bvh_compare_triangles` answers 0 in both orders for two
distinct triangles with equal centroid coordinate, so the comparator
imposes no ordering at all on key ties — in particular not the
original-index order the claim requires — and `qsort_r` gives no
stability guarantee of its own. -/
theorem C8_comparator_no_index_tiebreak :
    bvh_compare_triangles c8_tris 0 0 1 = 0 ∧
    bvh_compare_triangles c8_tris 0 1 0 = 0 ∧
    c8_tris.getD 0 defaultTri ≠ c8_tris.getD 1 defaultTri := by
  refine ⟨by decide, by decide, by decide⟩

/-! ## Claims C2, C3: the approximate strategy always accepts the
initial all-triangle part (its hull is empty, so its concavity is 0) -/

theorem convex_part_with_triangles_spec (junk : Box) (idxs : List ℕ) :
    convex_part_with_triangles junk idxs = ⟨⟨[], junk⟩, idxs, (0, 0, 0), 0⟩ := by
  have h : ∀ (l : List ℕ) (p : ConvexPart),
      l.foldl convex_part_add_triangle p =
        { p with triangle_indices := p.triangle_indices ++ l } := by
    intro l
    induction l with
    | nil => intro p; simp
    | cons i rest ih =>
      intro p
      simp only [List.foldl_cons, ih, convex_part_add_triangle, List.append_assoc,
        List.cons_append, List.nil_append]
  unfold convex_part_with_triangles convex_part_create
  rw [h]
  simp

theorem compute_properties_hull (part : ConvexPart) (tris : List Tri) :
    (convex_part_compute_properties part tris).hull = part.hull := by
  unfold convex_part_compute_properties
  split <;> rfl

theorem compute_properties_indices (part : ConvexPart) (tris : List Tri) :
    (convex_part_compute_properties part tris).triangle_indices = part.triangle_indices := by
  unfold convex_part_compute_properties
  split <;> rfl

theorem compute_properties_volume (part : ConvexPart) (tris : List Tri)
    (h : part.triangle_indices.length ≠ 0) :
    (convex_part_compute_properties part tris).volume =
      part.triangle_indices.length * (1 / 10) := by
  unfold convex_part_compute_properties
  rw [if_neg h]

theorem concavity_eq_zero_of_no_hull_vertices (part : ConvexPart) (tris : List Tri)
    (h : part.hull.vertices = []) : compute_part_concavity part tris = 0 := by
  unfold compute_part_concavity compute_volume
  rw [h]
  split <;> simp

theorem approximate_decompose_part_accepts (fuel : ℕ) (junk : Box) (part : ConvexPart)
    (tris : List Tri) (decomp : Decomp) (max_parts : ℕ) (tol : ℚ)
    (hf : 1 ≤ fuel) (hp : part.triangle_indices.length ≠ 0)
    (hh : part.hull.vertices = []) (ht : 0 ≤ tol) :
    approximate_decompose_part fuel junk part tris decomp max_parts tol =
      convex_decomposition_add_part decomp part := by
  obtain ⟨f, rfl⟩ : ∃ f, fuel = f + 1 := ⟨fuel - 1, by omega⟩
  simp only [approximate_decompose_part, if_neg hp]
  by_cases hmp : max_parts ≤ decomp.parts.length
  · rw [if_pos hmp]
  · rw [if_neg hmp, concavity_eq_zero_of_no_hull_vertices part tris hh,
      if_pos (Or.inl ht)]

/-- The all-triangle part both splitting strategies start from. -/
def initial_all_part (junk : Box) (tris : List Tri) : ConvexPart :=
  convex_part_compute_properties (convex_part_with_triangles junk (List.range tris.length)) tris

theorem initial_all_part_indices (junk : Box) (tris : List Tri) :
    (initial_all_part junk tris).triangle_indices = List.range tris.length := by
  unfold initial_all_part
  rw [compute_properties_indices, convex_part_with_triangles_spec]

theorem initial_all_part_hull (junk : Box) (tris : List Tri) :
    (initial_all_part junk tris).hull.vertices = [] := by
  unfold initial_all_part
  rw [compute_properties_hull, convex_part_with_triangles_spec]

theorem approximate_convex_decomposition_eq (fuel : ℕ) (junk : Box) (tris : List Tri)
    (max_parts : ℕ) (qt tol : ℚ) (h0 : tris ≠ []) (ht : 0 ≤ tol) (hf : 1 ≤ fuel) :
    approximate_convex_decomposition fuel junk tris max_parts qt tol =
      some { convex_decomposition_add_part (convex_decomposition_create .approx_convex)
               (initial_all_part junk tris) with
             decomposition_quality := compute_decomposition_quality
               (convex_decomposition_add_part (convex_decomposition_create .approx_convex)
                 (initial_all_part junk tris)) } := by
  have hlen : tris.length ≠ 0 := fun hc => h0 (List.eq_nil_of_length_eq_zero hc)
  simp only [approximate_convex_decomposition, if_neg hlen]
  unfold initial_all_part
  rw [approximate_decompose_part_accepts fuel junk _ tris _ max_parts tol hf
    (by rw [compute_properties_indices, convex_part_with_triangles_spec]; simpa using hlen)
    (by rw [compute_properties_hull, convex_part_with_triangles_spec]) ht]

/-- C3: for every non-empty mesh, every `max_parts`, every tolerance at or
above 0 (the documented domain of the concavity tolerance) and any
recursion budget, `approximate_convex_decomposition` returns exactly one
part holding every triangle index — the initial all-triangle part is
always accepted because its computed concavity is 0. -/
theorem C3_approx_single_part (fuel : ℕ) (junk : Box) (tris : List Tri)
    (max_parts : ℕ) (qt tol : ℚ) (h0 : tris ≠ []) (ht : 0 ≤ tol) (hf : 1 ≤ fuel) :
    (approximate_convex_decomposition fuel junk tris max_parts qt tol).map
        (fun d => d.parts.map (fun p => p.triangle_indices)) =
      some [List.range tris.length] := by
  rw [approximate_convex_decomposition_eq fuel junk tris max_parts qt tol h0 ht hf]
  simp [convex_decomposition_add_part, convex_decomposition_create, initial_all_part_indices]

unseal Rat.add Rat.mul Rat.sub Rat.inv in
theorem C3_approx_single_part_witness :
    (approximate_convex_decomposition 1 box0 wMesh.triangles 4 0 0).map
        (fun d => d.parts.map (fun p => p.triangle_indices)) =
      some [List.range 2] :=
  C3_approx_single_part 1 box0 wMesh.triangles 4 0 0 (by decide) (by decide) (by decide)

/-- C2: for `max_parts ≥ 1`, a non-empty mesh, a tolerance in its
documented domain (`≥ 0`) and any recursion budget, the approximate
strategy finishes and returns at most `max_parts` parts, each non-empty,
with every triangle index of the mesh in exactly one part. -/
theorem C2_approx_decomposition_contract (fuel : ℕ) (junk : Box) (tris : List Tri)
    (max_parts : ℕ) (qt tol : ℚ) (h0 : tris ≠ []) (hm : 1 ≤ max_parts)
    (ht : 0 ≤ tol) (hf : 1 ≤ fuel) :
    ∃ d, approximate_convex_decomposition fuel junk tris max_parts qt tol = some d ∧
      d.parts.length ≤ max_parts ∧
      (∀ p ∈ d.parts, p.triangle_indices ≠ []) ∧
      (d.parts.flatMap (fun p => p.triangle_indices)).Perm (List.range tris.length) := by
  refine ⟨_, approximate_convex_decomposition_eq fuel junk tris max_parts qt tol h0 ht hf,
    ?_, ?_, ?_⟩
  · simpa [convex_decomposition_add_part, convex_decomposition_create] using hm
  · intro p hp
    simp only [convex_decomposition_add_part, convex_decomposition_create,
      List.nil_append, List.mem_singleton] at hp
    subst hp
    rw [initial_all_part_indices]
    intro hc
    exact h0 (by simpa [List.range_eq_nil] using congrArg List.length hc)
  · simp [convex_decomposition_add_part, convex_decomposition_create,
      initial_all_part_indices]

unseal Rat.add Rat.mul Rat.sub Rat.inv in
theorem C2_approx_decomposition_contract_witness :
    ∃ d, approximate_convex_decomposition 1 box0 wMesh.triangles 4 0 0 = some d ∧
      d.parts.length ≤ 4 ∧
      (∀ p ∈ d.parts, p.triangle_indices ≠ []) ∧
      (d.parts.flatMap (fun p => p.triangle_indices)).Perm (List.range 2) :=
  C2_approx_decomposition_contract 1 box0 wMesh.triangles 4 0 0
    (by decide) (by decide) (by decide) (by decide)

/-! ## Claim C9: `split_threshold` does not influence the hierarchical
strategy -/

theorem hierarchical_split_part_threshold_irrelevant (junk : Box) (tris : List Tri) :
    ∀ (remaining : ℕ) (part : ConvexPart) (decomp : Decomp) (t1 t2 : ℚ),
      hierarchical_split_part junk tris part decomp remaining t1 =
        hierarchical_split_part junk tris part decomp remaining t2 := by
  intro remaining
  induction remaining with
  | zero => intro part decomp t1 t2; rfl
  | succ r ih =>
    intro part decomp t1 t2
    have ihs : ∀ p d, hierarchical_split_part junk tris p d r t1 =
        hierarchical_split_part junk tris p d r t2 := fun p d => ih p d t1 t2
    simp only [hierarchical_split_part]
    by_cases h : part.triangle_indices.length < 10
    · simp [h]
    · simp only [if_neg h, ihs]

/-- C9: two runs of `hierarchical_decomposition` that differ only in the
`split_threshold` argument produce identical decompositions — the
parameter is accepted but never read by the splitting decision. -/
theorem C9_hierarchical_threshold_independent (junk : Box) (stl : StlFile)
    (max_depth : ℕ) (t1 t2 : ℚ) :
    hierarchical_decomposition junk stl max_depth t1 =
      hierarchical_decomposition junk stl max_depth t2 := by
  unfold hierarchical_decomposition
  by_cases h : stl.triangles.length = 0
  · simp [h]
  · simp only [if_neg h]
    rw [hierarchical_split_part_threshold_irrelevant junk stl.triangles max_depth _ _ t1 t2]

/-! ## Claim C10: no strategy ever adds hull vertices -/

/-- Every part of the decomposition has an empty hull vertex list (the C
`hull.vertices == NULL`, `num_vertices == 0` state left by
`convex_part_create`). -/
def parts_hull_empty (d : Decomp) : Prop := ∀ p ∈ d.parts, p.hull.vertices = []

theorem add_part_hull_empty (d : Decomp) (p : ConvexPart)
    (hd : parts_hull_empty d) (hp : p.hull.vertices = []) :
    parts_hull_empty (convex_decomposition_add_part d p) := by
  intro q hq
  simp only [convex_decomposition_add_part, List.mem_append, List.mem_singleton] at hq
  rcases hq with h | h
  · exact hd q h
  · rw [h]; exact hp

theorem fresh_part_hull_empty (junk : Box) (idxs : List ℕ) (tris : List Tri) :
    (convex_part_compute_properties (convex_part_with_triangles junk idxs) tris).hull.vertices
      = [] := by
  rw [compute_properties_hull, convex_part_with_triangles_spec]

theorem create_hull_empty (s : DecompStrategy) :
    parts_hull_empty (convex_decomposition_create s) := by
  intro q hq
  simp [convex_decomposition_create] at hq

theorem approximate_decompose_part_hull_empty (junk : Box) (tris : List Tri)
    (max_parts : ℕ) (tol : ℚ) :
    ∀ (fuel : ℕ) (part : ConvexPart) (decomp : Decomp),
      parts_hull_empty decomp → part.hull.vertices = [] →
      parts_hull_empty (approximate_decompose_part fuel junk part tris decomp max_parts tol) := by
  intro fuel
  induction fuel with
  | zero => intro part decomp hd _; exact hd
  | succ f ih =>
    intro part decomp hd hp
    simp only [approximate_decompose_part]
    by_cases h0 : part.triangle_indices.length = 0
    · simp only [if_pos h0]; exact hd
    · simp only [if_neg h0]
      by_cases hmp : max_parts ≤ decomp.parts.length
      · simp only [if_pos hmp]; exact add_part_hull_empty _ _ hd hp
      · simp only [if_neg hmp]
        by_cases hacc : compute_part_concavity part tris ≤ tol ∨ part.triangle_indices.length < 10
        · simp only [if_pos hacc]; exact add_part_hull_empty _ _ hd hp
        · simp only [if_neg hacc]
          split
          · apply ih _ _ ?_ (fresh_part_hull_empty _ _ _)
            split
            · exact ih _ _ hd (fresh_part_hull_empty _ _ _)
            · exact hd
          · split
            · exact ih _ _ hd (fresh_part_hull_empty _ _ _)
            · exact hd

theorem hierarchical_split_part_hull_empty (junk : Box) (tris : List Tri) (st : ℚ) :
    ∀ (remaining : ℕ) (part : ConvexPart) (decomp : Decomp),
      parts_hull_empty decomp →
      parts_hull_empty (hierarchical_split_part junk tris part decomp remaining st) := by
  intro remaining
  induction remaining with
  | zero =>
    intro part decomp hd
    exact add_part_hull_empty _ _ hd (fresh_part_hull_empty _ _ _)
  | succ r ih =>
    intro part decomp hd
    simp only [hierarchical_split_part]
    by_cases h : part.triangle_indices.length < 10
    · simp only [if_pos h]
      exact add_part_hull_empty _ _ hd (fresh_part_hull_empty _ _ _)
    · simp only [if_neg h]
      split
      · apply ih _ _ ?_
        split
        · exact ih _ _ hd
        · exact hd
      · split
        · exact ih _ _ hd
        · exact hd

theorem voxel_emit_hull_empty (junk : Box) (stl : StlFile) (vs : ℚ) (mt : ℕ)
    (d : Decomp) (c : ℤ × ℤ × ℤ) (hd : parts_hull_empty d) :
    parts_hull_empty (voxel_emit junk stl vs mt d c) := by
  simp only [voxel_emit]
  split
  · split
    · exact add_part_hull_empty _ _ hd (fresh_part_hull_empty _ _ _)
    · exact hd
  · exact hd

theorem approx_output_hull_empty (fuel : ℕ) (junk : Box) (tris : List Tri)
    (mp : ℕ) (qt tol : ℚ) (d : Decomp)
    (h : approximate_convex_decomposition fuel junk tris mp qt tol = some d) :
    parts_hull_empty d := by
  unfold approximate_convex_decomposition at h
  by_cases h0 : tris.length = 0
  · simp [h0] at h
  · simp only [if_neg h0, Option.some.injEq] at h
    subst h
    intro p hp
    exact approximate_decompose_part_hull_empty junk tris mp tol fuel _ _
      (create_hull_empty _) (fresh_part_hull_empty _ _ _) p hp

theorem hierarchical_output_hull_empty (junk : Box) (stl : StlFile) (md : ℕ)
    (st : ℚ) (d : Decomp) (h : hierarchical_decomposition junk stl md st = some d) :
    parts_hull_empty d := by
  unfold hierarchical_decomposition at h
  by_cases h0 : stl.triangles.length = 0
  · simp [h0] at h
  · simp only [if_neg h0, Option.some.injEq] at h
    subst h
    intro p hp
    exact hierarchical_split_part_hull_empty junk stl.triangles st md _ _
      (create_hull_empty _) p hp

theorem voxel_output_hull_empty (junk : Box) (stl : StlFile) (vs : ℚ) (mt : ℕ)
    (d : Decomp) (h : voxel_based_decomposition junk stl vs mt = some d) :
    parts_hull_empty d := by
  unfold voxel_based_decomposition at h
  by_cases h0 : stl.triangles.length = 0 ∨ vs ≤ 0
  · rw [if_pos h0] at h; exact Option.noConfusion h
  · simp only [if_neg h0, Option.some.injEq] at h
    subst h
    intro p hp
    exact foldl_preserves parts_hull_empty _
      (fun a b ha => voxel_emit_hull_empty junk stl vs mt a b ha) _ _
      (create_hull_empty _) p hp

/-- C10: every part produced by any of the three decomposition strategies
has a hull with no vertices (`vertices == NULL`, `num_vertices == 0` in
the C representation, the empty list here), and `compute_part_concavity`
returns 0 on every such part. -/
theorem C10_no_strategy_populates_hulls :
    (∀ (fuel : ℕ) (junk : Box) (tris : List Tri) (mp : ℕ) (qt tol : ℚ) (d : Decomp),
        approximate_convex_decomposition fuel junk tris mp qt tol = some d →
        ∀ p ∈ d.parts, p.hull.vertices = [] ∧ compute_part_concavity p tris = 0) ∧
    (∀ (junk : Box) (stl : StlFile) (md : ℕ) (st : ℚ) (d : Decomp),
        hierarchical_decomposition junk stl md st = some d →
        ∀ p ∈ d.parts, p.hull.vertices = [] ∧ compute_part_concavity p stl.triangles = 0) ∧
    (∀ (junk : Box) (stl : StlFile) (vs : ℚ) (mt : ℕ) (d : Decomp),
        voxel_based_decomposition junk stl vs mt = some d →
        ∀ p ∈ d.parts, p.hull.vertices = [] ∧ compute_part_concavity p stl.triangles = 0) := by
  refine ⟨?_, ?_, ?_⟩
  · intro fuel junk tris mp qt tol d h p hp
    have he := approx_output_hull_empty fuel junk tris mp qt tol d h p hp
    exact ⟨he, concavity_eq_zero_of_no_hull_vertices p tris he⟩
  · intro junk stl md st d h p hp
    have he := hierarchical_output_hull_empty junk stl md st d h p hp
    exact ⟨he, concavity_eq_zero_of_no_hull_vertices p stl.triangles he⟩
  · intro junk stl vs mt d h p hp
    have he := voxel_output_hull_empty junk stl vs mt d h p hp
    exact ⟨he, concavity_eq_zero_of_no_hull_vertices p stl.triangles he⟩

/-! ## Claim C6: the quality score -/

theorem population_variance_nonneg (vs : List ℚ) : 0 ≤ population_variance vs := by
  unfold population_variance
  apply div_nonneg
  · apply sum_nonneg_of_nonneg
    intro x hx
    rcases List.mem_map.mp hx with ⟨v, _, rfl⟩
    positivity
  · positivity

theorem population_variance_eq_zero_iff (vs : List ℚ) (hne : vs ≠ []) :
    population_variance vs = 0 ↔ ∀ x ∈ vs, ∀ y ∈ vs, x = y := by
  have hkpos : (0 : ℚ) < vs.length := by exact_mod_cast List.length_pos.mpr hne
  have hk : (vs.length : ℚ) ≠ 0 := ne_of_gt hkpos
  constructor
  · intro h x hx y hy
    unfold population_variance at h
    rcases div_eq_zero_iff.mp h with h | h
    swap
    · exact absurd h hk
    have hall := sum_nonneg_eq_zero _
      (fun z hz => by rcases List.mem_map.mp hz with ⟨v, _, rfl⟩; positivity) h
    have hmean : ∀ z ∈ vs, z = vs.sum / vs.length := by
      intro z hz
      have h2 := hall _ (List.mem_map_of_mem _ hz)
      have h3 := pow_eq_zero_iff (two_ne_zero) |>.mp h2
      linarith [sub_eq_zero.mp h3]
    rw [hmean x hx, hmean y hy]
  · intro h
    obtain ⟨v0, vs', rfl⟩ := List.exists_cons_of_ne_nil hne
    have hconst : ∀ x ∈ v0 :: vs', x = v0 :=
      fun x hx => h x hx v0 (List.mem_cons_self v0 vs')
    have hsum : (v0 :: vs').sum = (v0 :: vs').length * v0 :=
      sum_of_constant _ v0 hconst
    have hm : (v0 :: vs').sum / ((v0 :: vs').length : ℚ) = v0 := by
      rw [hsum]
      field_simp
    unfold population_variance
    have hz : ((v0 :: vs').map
        (fun v => (v - (v0 :: vs').sum / ((v0 :: vs').length : ℚ)) ^ 2)).sum = 0 := by
      apply List.sum_eq_zero
      intro x hx
      rcases List.mem_map.mp hx with ⟨v, hv, rfl⟩
      rw [hm, hconst v hv]
      ring
    rw [hz, zero_div]

theorem quality_formula_facts (vs : List ℚ) (hne : vs ≠ []) :
    0 < 1 / (1 + population_variance vs) ∧
    1 / (1 + population_variance vs) ≤ 1 ∧
    (1 / (1 + population_variance vs) = 1 ↔ ∀ x ∈ vs, ∀ y ∈ vs, x = y) := by
  have hV := population_variance_nonneg vs
  have h1V : (0 : ℚ) < 1 + population_variance vs := by linarith
  refine ⟨one_div_pos.mpr h1V, (div_le_one h1V).mpr (by linarith), ?_⟩
  rw [div_eq_one_iff_eq (ne_of_gt h1V)]
  rw [show (1 = 1 + population_variance vs ↔ population_variance vs = 0) by
    constructor <;> intro h <;> linarith]
  exact population_variance_eq_zero_iff vs hne

/-- What C6 claims of a decomposition's stored quality score. -/
def quality_spec (d : Decomp) : Prop :=
  d.decomposition_quality = 1 / (1 + population_variance (d.parts.map (fun p => p.volume))) ∧
  0 < d.decomposition_quality ∧ d.decomposition_quality ≤ 1 ∧
  (d.decomposition_quality = 1 ↔ ∀ p ∈ d.parts, ∀ q ∈ d.parts, p.volume = q.volume)

/-- The stored running total equals the sum of the part volumes — the
invariant `convex_decomposition_add_part` maintains from creation on. -/
def total_volume_ok (d : Decomp) : Prop :=
  d.total_volume = (d.parts.map (fun p => p.volume)).sum

theorem create_total_ok (s : DecompStrategy) :
    total_volume_ok (convex_decomposition_create s) := by
  simp [total_volume_ok, convex_decomposition_create]

theorem add_part_total_ok (d : Decomp) (p : ConvexPart) (hd : total_volume_ok d) :
    total_volume_ok (convex_decomposition_add_part d p) := by
  unfold total_volume_ok convex_decomposition_add_part at *
  simp [hd]

theorem compute_quality_eq_formula (d : Decomp) (hne : d.parts ≠ [])
    (htot : total_volume_ok d) :
    compute_decomposition_quality d =
      1 / (1 + population_variance (d.parts.map (fun p => p.volume))) := by
  have hlen : d.parts.length ≠ 0 := fun hc => hne (List.eq_nil_of_length_eq_zero hc)
  unfold total_volume_ok at htot
  simp only [compute_decomposition_quality, population_variance, if_neg hlen]
  rw [foldl_add_eq_sum, zero_add, List.map_map, List.length_map, htot]
  have hfun : (fun p : ConvexPart =>
      (p.volume - (List.map (fun p => p.volume) d.parts).sum / (d.parts.length : ℚ)) *
        (p.volume - (List.map (fun p => p.volume) d.parts).sum / (d.parts.length : ℚ)))
      = ((fun v : ℚ =>
          (v - (List.map (fun p => p.volume) d.parts).sum / (d.parts.length : ℚ)) ^ 2) ∘
        fun p : ConvexPart => p.volume) := by
    funext p
    simp [Function.comp, pow_two]
  rw [hfun]

theorem compute_quality_spec_update (d : Decomp) (hne : d.parts ≠ [])
    (htot : total_volume_ok d) :
    quality_spec { d with decomposition_quality := compute_decomposition_quality d } := by
  have heq := compute_quality_eq_formula d hne htot
  have hvs : d.parts.map (fun p => p.volume) ≠ [] := by simpa using hne
  obtain ⟨hpos, hle, hiff⟩ := quality_formula_facts _ hvs
  unfold quality_spec
  refine ⟨heq, ?_, ?_, ?_⟩
  · show 0 < compute_decomposition_quality d
    rw [heq]; exact hpos
  · show compute_decomposition_quality d ≤ 1
    rw [heq]; exact hle
  · show compute_decomposition_quality d = 1 ↔ _
    rw [heq, hiff]
    constructor
    · intro h p hp q hq
      exact h _ (List.mem_map_of_mem _ hp) _ (List.mem_map_of_mem _ hq)
    · intro h x hx y hy
      rcases List.mem_map.mp hx with ⟨p, hp, rfl⟩
      rcases List.mem_map.mp hy with ⟨q, hq, rfl⟩
      exact h p hp q hq

theorem approximate_decompose_part_total_ok (junk : Box) (tris : List Tri)
    (max_parts : ℕ) (tol : ℚ) :
    ∀ (fuel : ℕ) (part : ConvexPart) (decomp : Decomp),
      total_volume_ok decomp →
      total_volume_ok (approximate_decompose_part fuel junk part tris decomp max_parts tol) := by
  intro fuel
  induction fuel with
  | zero => intro part decomp hd; exact hd
  | succ f ih =>
    intro part decomp hd
    simp only [approximate_decompose_part]
    by_cases h0 : part.triangle_indices.length = 0
    · simp only [if_pos h0]; exact hd
    · simp only [if_neg h0]
      by_cases hmp : max_parts ≤ decomp.parts.length
      · simp only [if_pos hmp]; exact add_part_total_ok _ _ hd
      · simp only [if_neg hmp]
        by_cases hacc : compute_part_concavity part tris ≤ tol ∨ part.triangle_indices.length < 10
        · simp only [if_pos hacc]; exact add_part_total_ok _ _ hd
        · simp only [if_neg hacc]
          split
          · apply ih
            split
            · exact ih _ _ hd
            · exact hd
          · split
            · exact ih _ _ hd
            · exact hd

theorem hierarchical_split_part_total_ok (junk : Box) (tris : List Tri) (st : ℚ) :
    ∀ (remaining : ℕ) (part : ConvexPart) (decomp : Decomp),
      total_volume_ok decomp →
      total_volume_ok (hierarchical_split_part junk tris part decomp remaining st) := by
  intro remaining
  induction remaining with
  | zero => intro part decomp hd; exact add_part_total_ok _ _ hd
  | succ r ih =>
    intro part decomp hd
    simp only [hierarchical_split_part]
    by_cases h : part.triangle_indices.length < 10
    · simp only [if_pos h]; exact add_part_total_ok _ _ hd
    · simp only [if_neg h]
      split
      · apply ih
        split
        · exact ih _ _ hd
        · exact hd
      · split
        · exact ih _ _ hd
        · exact hd

theorem voxel_emit_total_ok (junk : Box) (stl : StlFile) (vs : ℚ) (mt : ℕ)
    (d : Decomp) (c : ℤ × ℤ × ℤ) (hd : total_volume_ok d) :
    total_volume_ok (voxel_emit junk stl vs mt d c) := by
  simp only [voxel_emit]
  split
  · split
    · exact add_part_total_ok _ _ hd
    · exact hd
  · exact hd

theorem length_filter_add_length_filter_not {α : Type} (p : α → Bool) :
    ∀ l : List α, (l.filter p).length + (l.filter (fun a => !p a)).length = l.length := by
  intro l
  induction l with
  | nil => rfl
  | cons a l ih => by_cases h : p a <;> simp [List.filter_cons, h] <;> omega

theorem partition_length_sum {α : Type} (p : α → Bool) (l : List α) :
    (l.partition p).1.length + (l.partition p).2.length = l.length := by
  rw [List.partition_eq_filter_filter]
  exact length_filter_add_length_filter_not p l

theorem partition_not_both_nil {α : Type} (p : α → Bool) (l : List α)
    (h1 : (l.partition p).1.length = 0) (h2 : (l.partition p).2.length = 0) :
    l.length = 0 := by
  have := partition_length_sum p l
  omega

/-- The hierarchical recursion always appends at least one part. -/
theorem hierarchical_split_part_adds (junk : Box) (tris : List Tri) (st : ℚ) :
    ∀ (remaining : ℕ) (part : ConvexPart) (decomp : Decomp),
      decomp.parts.length <
        (hierarchical_split_part junk tris part decomp remaining st).parts.length := by
  have hadd : ∀ (d : Decomp) (p : ConvexPart),
      d.parts.length < (convex_decomposition_add_part d p).parts.length := by
    intro d p
    simp [convex_decomposition_add_part]
  intro remaining
  induction remaining with
  | zero => intro part decomp; exact hadd _ _
  | succ r ih =>
    intro part decomp
    simp only [hierarchical_split_part]
    by_cases h : part.triangle_indices.length < 10
    · simp only [if_pos h]; exact hadd _ _
    · simp only [if_neg h, convex_part_with_triangles_spec]
      split
      · refine lt_of_le_of_lt ?_ (ih _ _)
        split
        · exact le_of_lt (ih _ _)
        · exact le_refl _
      · rename_i hright
        split
        · exact ih _ _
        · rename_i hleft
          exfalso
          have h1 : _ = 0 := not_not.mp hleft
          have h2 : _ = 0 := not_not.mp hright
          have h0 := partition_not_both_nil _ _ h1 h2
          omega

/-- C6 (amended): for every decomposition returned by one of the three
strategies that holds at least one part, the stored quality score equals
`1 / (1 + population variance of the part volumes)`, lies in `(0, 1]`,
and is 1 exactly when all parts have equal volume.  (The approximate
strategy is taken on its defined domain: non-empty mesh, tolerance `≥ 0`,
enough recursion budget; it and the hierarchical strategy always return
at least one part, while a voxel decomposition can be empty — see the
counterexample.) -/
theorem C6_quality_score_amended :
    (∀ (fuel : ℕ) (junk : Box) (tris : List Tri) (mp : ℕ) (qt tol : ℚ) (d : Decomp),
        tris ≠ [] → 0 ≤ tol → 1 ≤ fuel →
        approximate_convex_decomposition fuel junk tris mp qt tol = some d →
        quality_spec d) ∧
    (∀ (junk : Box) (stl : StlFile) (md : ℕ) (st : ℚ) (d : Decomp),
        hierarchical_decomposition junk stl md st = some d → quality_spec d) ∧
    (∀ (junk : Box) (stl : StlFile) (vs : ℚ) (mt : ℕ) (d : Decomp),
        voxel_based_decomposition junk stl vs mt = some d → d.parts ≠ [] →
        quality_spec d) := by
  refine ⟨?_, ?_, ?_⟩
  · intro fuel junk tris mp qt tol d h0 ht hf h
    rw [approximate_convex_decomposition_eq fuel junk tris mp qt tol h0 ht hf,
      Option.some.injEq] at h
    subst h
    apply compute_quality_spec_update
    · simp [convex_decomposition_add_part, convex_decomposition_create]
    · exact add_part_total_ok _ _ (create_total_ok _)
  · intro junk stl md st d h
    unfold hierarchical_decomposition at h
    by_cases h0 : stl.triangles.length = 0
    · rw [if_pos h0] at h; exact Option.noConfusion h
    · simp only [if_neg h0, Option.some.injEq] at h
      subst h
      apply compute_quality_spec_update
      · intro hc
        have hlt := hierarchical_split_part_adds junk stl.triangles st md
          (convex_part_compute_properties
            (convex_part_with_triangles junk (List.range stl.triangles.length)) stl.triangles)
          (convex_decomposition_create .hierarchical)
        rw [hc] at hlt
        simp [convex_decomposition_create] at hlt
      · exact hierarchical_split_part_total_ok junk stl.triangles st md _ _
          (create_total_ok _)
  · intro junk stl vs mt d h hne
    unfold voxel_based_decomposition at h
    by_cases h0 : stl.triangles.length = 0 ∨ vs ≤ 0
    · rw [if_pos h0] at h; exact Option.noConfusion h
    · simp only [if_neg h0, Option.some.injEq] at h
      subst h
      apply compute_quality_spec_update
      · exact hne
      · exact foldl_preserves total_volume_ok _
          (fun a b ha => voxel_emit_total_ok junk stl vs mt a b ha) _ _
          (create_total_ok _)

unseal Rat.add Rat.mul Rat.sub Rat.inv in
/-- C6 counterexample: the voxel strategy run on a two-triangle mesh with
`min_triangles_per_voxel = 5` returns a decomposition (so the claim's
quantifier reaches it) whose stored quality is 0, which is not in the
claimed range `(0, 1]`. -/
theorem C6_quality_counterexample :
    (voxel_based_decomposition box0 wMesh 1 5).map (fun d => d.decomposition_quality) =
      some 0 ∧ ¬ ((0 : ℚ) < 0) := by
  refine ⟨by decide, by decide⟩

/-! ## Claim C7: the voxel strategy's lossy partition of the triangles -/

theorem length_filter_range_getD {α : Type} (dflt : α) (p : α → Bool) :
    ∀ l : List α,
      ((List.range l.length).filter (fun i => p (l.getD i dflt))).length =
        (l.filter p).length := by
  intro l
  induction l with
  | nil => rfl
  | cons a l ih =>
    have hrange : List.range (a :: l).length = 0 :: (List.range l.length).map Nat.succ := by
      simp [List.range_succ_eq_map]
    rw [hrange]
    have hmap : ((List.range l.length).map Nat.succ).filter
          (fun i => p ((a :: l).getD i dflt)) =
        ((List.range l.length).filter (fun i => p (l.getD i dflt))).map Nat.succ := by
      rw [List.filter_map]
      rfl
    by_cases ha : p a
    · have hl : List.filter (fun i => p ((a :: l).getD i dflt))
            (0 :: (List.range l.length).map Nat.succ) =
          0 :: List.filter (fun i => p ((a :: l).getD i dflt))
            ((List.range l.length).map Nat.succ) := by
        simp [List.filter_cons, ha]
      have hr : List.filter p (a :: l) = a :: List.filter p l := by
        simp [List.filter_cons, ha]
      rw [hl, hmap, hr]
      simp only [List.length_cons, List.length_map]
      rw [ih]
    · have hl : List.filter (fun i => p ((a :: l).getD i dflt))
            (0 :: (List.range l.length).map Nat.succ) =
          List.filter (fun i => p ((a :: l).getD i dflt))
            ((List.range l.length).map Nat.succ) := by
        simp [List.filter_cons, ha]
      have hr : List.filter p (a :: l) = List.filter p l := by
        simp [List.filter_cons, ha]
      rw [hl, hmap, hr, List.length_map, ih]

theorem voxel_count_eq_indices_length (stl : StlFile) (vs : ℚ) (c : ℤ × ℤ × ℤ)
    (hc : voxel_in_range stl vs c) :
    voxel_count stl vs c = (voxel_part_indices stl vs c).length := by
  unfold voxel_count voxel_part_indices
  rw [length_filter_range_getD defaultTri
    (fun t => decide (voxel_index stl vs t = c)) stl.triangles]
  congr 1
  apply List.filter_congr
  intro t _
  by_cases h : voxel_index stl vs t = c
  · simp [h, hc]
  · simp [h]

theorem mem_voxel_cells_in_range (stl : StlFile) (vs : ℚ) (c : ℤ × ℤ × ℤ)
    (h : c ∈ voxel_cells (voxel_grid_size stl.bounds.minx stl.bounds.maxx vs)
      (voxel_grid_size stl.bounds.miny stl.bounds.maxy vs)
      (voxel_grid_size stl.bounds.minz stl.bounds.maxz vs)) :
    voxel_in_range stl vs c := by
  unfold voxel_cells at h
  rcases List.mem_flatMap.mp h with ⟨x, hx, h⟩
  rcases List.mem_flatMap.mp h with ⟨y, hy, h⟩
  rcases List.mem_map.mp h with ⟨z, hz, rfl⟩
  rw [List.mem_range] at hx hy hz
  unfold voxel_in_range
  refine ⟨?_, ?_, ?_, ?_, ?_, ?_⟩ <;> simp <;> omega

theorem nodup_flatMap_disjoint {α β : Type} (f : α → List β) :
    ∀ l : List α, l.Nodup → (∀ a ∈ l, (f a).Nodup) →
      (∀ a ∈ l, ∀ b ∈ l, a ≠ b → ∀ x ∈ f a, x ∉ f b) → (l.flatMap f).Nodup := by
  intro l
  induction l with
  | nil => intro _ _ _; simp
  | cons a l ih =>
    intro hnd hf hdisj
    rw [List.flatMap_cons]
    apply List.Nodup.append
    · exact hf a (List.mem_cons_self a l)
    · exact ih (List.nodup_cons.mp hnd).2
        (fun b hb => hf b (List.mem_cons_of_mem a hb))
        (fun b hb c hc hbc =>
          hdisj b (List.mem_cons_of_mem a hb) c (List.mem_cons_of_mem a hc) hbc)
    · intro x hxa hxl
      rcases List.mem_flatMap.mp hxl with ⟨b, hb, hxb⟩
      have hab : a ≠ b := fun hh => (List.nodup_cons.mp hnd).1 (hh ▸ hb)
      exact hdisj a (List.mem_cons_self a l) b (List.mem_cons_of_mem a hb) hab x hxa hxb

theorem voxel_cells_nodup (nx ny nz : ℤ) : (voxel_cells nx ny nz).Nodup := by
  unfold voxel_cells
  apply nodup_flatMap_disjoint
  · exact List.nodup_range _
  · intro x _
    apply nodup_flatMap_disjoint
    · exact List.nodup_range _
    · intro y _
      refine List.Nodup.map ?_ (List.nodup_range _)
      intro z1 z2 hz
      simpa using hz
    · intro y1 _ y2 _ hy c h1 h2
      rcases List.mem_map.mp h1 with ⟨z1, _, rfl⟩
      rcases List.mem_map.mp h2 with ⟨z2, _, hz⟩
      apply hy
      have := congrArg (fun q : ℤ × ℤ × ℤ => q.2.1) hz
      simpa using this.symm
  · intro x1 _ x2 _ hx c h1 h2
    rcases List.mem_flatMap.mp h1 with ⟨y1, _, h1⟩
    rcases List.mem_map.mp h1 with ⟨z1, _, rfl⟩
    rcases List.mem_flatMap.mp h2 with ⟨y2, _, h2⟩
    rcases List.mem_map.mp h2 with ⟨z2, _, hz⟩
    apply hx
    have := congrArg (fun q : ℤ × ℤ × ℤ => q.1) hz
    simpa using this.symm

/-- The filter keeping exactly the cells `voxel_based_decomposition` emits
a part for. -/
def voxel_emits (stl : StlFile) (vs : ℚ) (mt : ℕ) (c : ℤ × ℤ × ℤ) : Bool :=
  decide (mt ≤ voxel_count stl vs c) && decide ((voxel_part_indices stl vs c).length ≠ 0)

theorem voxel_fold_parts (junk : Box) (stl : StlFile) (vs : ℚ) (mt : ℕ) :
    ∀ (cells : List (ℤ × ℤ × ℤ)) (d : Decomp),
      (cells.foldl (voxel_emit junk stl vs mt) d).parts =
        d.parts ++ (cells.filter (voxel_emits stl vs mt)).map
          (fun c => convex_part_compute_properties
            (convex_part_with_triangles junk (voxel_part_indices stl vs c)) stl.triangles) := by
  intro cells
  induction cells with
  | nil => intro d; simp
  | cons c cs ih =>
    intro d
    simp only [List.foldl_cons, List.filter_cons]
    by_cases h1 : mt ≤ voxel_count stl vs c
    · by_cases h2 : (voxel_part_indices stl vs c).length ≠ 0
      · rw [ih]
        have he : voxel_emit junk stl vs mt d c =
            convex_decomposition_add_part d (convex_part_compute_properties
              (convex_part_with_triangles junk (voxel_part_indices stl vs c)) stl.triangles) := by
          simp only [voxel_emit, if_pos h1, if_pos h2]
        have hp : voxel_emits stl vs mt c = true := by
          simp [voxel_emits, h1, h2]
        rw [he, hp]
        simp [convex_decomposition_add_part]
      · rw [ih]
        have he : voxel_emit junk stl vs mt d c = d := by
          simp only [voxel_emit, if_pos h1, if_neg h2]
        have hp : voxel_emits stl vs mt c = false := by
          simp [voxel_emits, h2]
        rw [he, hp]
        simp
    · rw [ih]
      have he : voxel_emit junk stl vs mt d c = d := by
        simp only [voxel_emit, if_neg h1]
      have hp : voxel_emits stl vs mt c = false := by
        simp [voxel_emits, h1]
      rw [he, hp]
      simp

theorem mem_voxel_part_indices (stl : StlFile) (vs : ℚ) (c : ℤ × ℤ × ℤ) (i : ℕ)
    (h : i ∈ voxel_part_indices stl vs c) :
    voxel_index stl vs (stl.triangles.getD i defaultTri) = c := by
  unfold voxel_part_indices at h
  have := (List.mem_filter.mp h).2
  simpa using this

/-- C7: every part the voxel strategy emits corresponds to one in-range
grid cell whose triangle count reaches the threshold, and holds exactly
that cell's triangles (so at least `min_triangles_per_voxel` of them); a
triangle whose centroid falls in a cell below the threshold is in no
part; and no triangle index occurs in two distinct parts. -/
theorem C7_voxel_partition (junk : Box) (stl : StlFile) (vs : ℚ) (mt : ℕ) (d : Decomp)
    (h : voxel_based_decomposition junk stl vs mt = some d) :
    (∀ p ∈ d.parts, ∃ c, voxel_in_range stl vs c ∧ mt ≤ voxel_count stl vs c ∧
        p.triangle_indices = voxel_part_indices stl vs c ∧
        mt ≤ p.triangle_indices.length) ∧
    (∀ i : ℕ, voxel_count stl vs (voxel_index stl vs (stl.triangles.getD i defaultTri)) < mt →
        ∀ p ∈ d.parts, i ∉ p.triangle_indices) ∧
    (∀ i : ℕ, d.parts.Pairwise
        (fun p q => ¬ (i ∈ p.triangle_indices ∧ i ∈ q.triangle_indices))) := by
  unfold voxel_based_decomposition at h
  by_cases h0 : stl.triangles.length = 0 ∨ vs ≤ 0
  · rw [if_pos h0] at h; exact Option.noConfusion h
  · simp only [if_neg h0, Option.some.injEq] at h
    have hparts : d.parts =
        ((voxel_cells (voxel_grid_size stl.bounds.minx stl.bounds.maxx vs)
            (voxel_grid_size stl.bounds.miny stl.bounds.maxy vs)
            (voxel_grid_size stl.bounds.minz stl.bounds.maxz vs)).filter
          (voxel_emits stl vs mt)).map
          (fun c => convex_part_compute_properties
            (convex_part_with_triangles junk (voxel_part_indices stl vs c)) stl.triangles) := by
      rw [← h]
      show (List.foldl (voxel_emit junk stl vs mt) (convex_decomposition_create .voxel_based) _).parts = _
      rw [voxel_fold_parts]
      rfl
    have hpart_idx : ∀ c, (convex_part_compute_properties
        (convex_part_with_triangles junk (voxel_part_indices stl vs c))
          stl.triangles).triangle_indices = voxel_part_indices stl vs c := by
      intro c
      rw [compute_properties_indices, convex_part_with_triangles_spec]
    refine ⟨?_, ?_, ?_⟩
    · intro p hp
      rw [hparts] at hp
      rcases List.mem_map.mp hp with ⟨c, hcf, rfl⟩
      have hcm := List.mem_filter.mp hcf
      have hrange := mem_voxel_cells_in_range stl vs c hcm.1
      have hemit := hcm.2
      simp only [voxel_emits, Bool.and_eq_true, decide_eq_true_eq] at hemit
      refine ⟨c, hrange, hemit.1, hpart_idx c, ?_⟩
      rw [hpart_idx c, ← voxel_count_eq_indices_length stl vs c hrange]
      exact hemit.1
    · intro i hcount p hp hip
      rw [hparts] at hp
      rcases List.mem_map.mp hp with ⟨c, hcf, rfl⟩
      have hcm := List.mem_filter.mp hcf
      have hrange := mem_voxel_cells_in_range stl vs c hcm.1
      have hemit := hcm.2
      simp only [voxel_emits, Bool.and_eq_true, decide_eq_true_eq] at hemit
      rw [hpart_idx c] at hip
      have hceq := mem_voxel_part_indices stl vs c i hip
      rw [hceq] at hcount
      omega
    · intro i
      rw [hparts]
      rw [List.pairwise_map]
      have hnodup : ((voxel_cells (voxel_grid_size stl.bounds.minx stl.bounds.maxx vs)
            (voxel_grid_size stl.bounds.miny stl.bounds.maxy vs)
            (voxel_grid_size stl.bounds.minz stl.bounds.maxz vs)).filter
          (voxel_emits stl vs mt)).Nodup :=
        List.Nodup.filter _ (voxel_cells_nodup _ _ _)
      apply List.Pairwise.imp ?_ hnodup
      intro c1 c2 hne hcontra
      rw [hpart_idx c1, hpart_idx c2] at hcontra
      exact hne ((mem_voxel_part_indices stl vs c1 i hcontra.1).symm.trans
        (mem_voxel_part_indices stl vs c2 i hcontra.2))

set_option maxRecDepth 100000 in
unseal Rat.add Rat.mul Rat.sub Rat.inv in
theorem C7_voxel_partition_witness :
    (∀ p ∈ ((voxel_based_decomposition box0 wMeshBig 1 3).getD defDecomp).parts,
        ∃ c, voxel_in_range wMeshBig 1 c ∧ 3 ≤ voxel_count wMeshBig 1 c ∧
          p.triangle_indices = voxel_part_indices wMeshBig 1 c ∧
          3 ≤ p.triangle_indices.length) ∧
    (∀ i : ℕ, voxel_count wMeshBig 1
          (voxel_index wMeshBig 1 (wMeshBig.triangles.getD i defaultTri)) < 3 →
        ∀ p ∈ ((voxel_based_decomposition box0 wMeshBig 1 3).getD defDecomp).parts,
          i ∉ p.triangle_indices) ∧
    (∀ i : ℕ, ((voxel_based_decomposition box0 wMeshBig 1 3).getD defDecomp).parts.Pairwise
        (fun p q => ¬ (i ∈ p.triangle_indices ∧ i ∈ q.triangle_indices))) :=
  C7_voxel_partition box0 wMeshBig 1 3 _ (by decide)

unseal Rat.add Rat.mul Rat.sub Rat.inv in
theorem C1_bvh_leaf_coverage_witness :
    (leafIndices ((bvh_create wMesh 1).getD defTree).root).Perm (List.range 2) :=
  C1_bvh_leaf_coverage wMesh 1 _ (by decide)

end PSC
